import Mathlib

/-!
Verification of the rollout-coordination and experience-store core of the
repository, as a shallow embedding in Lean 4.

Part 1: `ActorManager.collect` (src/maro/rl/distributed/actor_manager.py).
The transport is modelled as a list of inbound messages; the generator body
(lines 81-106) becomes a structurally recursive loop over that list that
returns the yielded pairs, the final counter state, the final quorum count
and the messages left unconsumed.
-/

namespace Maro

/-- One inbound rollout-result message (the `msg.body` fields read by
`ActorManager.collect`).  `experiences` is the opaque batch payload,
identified by a number; `source` is the sending environment's identity. -/
structure Message where
  rollout_index : Nat
  segment_index : Nat
  num_experiences : Nat
  num_steps : Nat
  env_end : Bool
  total_reward : Int
  experiences : Nat
  source : Nat
deriving DecidableEq

/-- The cumulative counters of `ActorManager` (`__init__`, lines 40-42).
`total_reward` models the `defaultdict(float)` as an association list from
environment identity to running total. -/
structure AMState where
  total_experiences_collected : Nat
  total_env_steps : Nat
  total_reward : List (Nat × Int)
deriving DecidableEq

/-- Result of processing one inbound message inside the `collect` loop. -/
structure StepResult where
  yielded : List (Nat × Bool)
  st : AMState
  num_finishes : Nat
  done : Bool
deriving DecidableEq

/-- The body of the `for msg in self._proxy.receive()` loop of
`ActorManager.collect` (lines 83-106), for a single message:
the rollout-index filter (`continue`), the acceptance test
(segment match or `not discard_stale_experiences`) with counter updates and
yield, and the quorum count with the `break` test. -/
def processMsg (ri si : Nat) (discard : Bool) (req : Nat)
    (st : AMState) (nf : Nat) (m : Message) : StepResult :=
  if m.rollout_index != ri then
    ⟨[], st, nf, false⟩
  else
    let accept := m.segment_index == si || !discard
    let st' :=
      if accept then
        { st with
          total_experiences_collected :=
            st.total_experiences_collected + m.num_experiences,
          total_env_steps := st.total_env_steps + m.num_steps }
      else st
    let ys := if accept then [(m.experiences, m.env_end)] else []
    if m.segment_index == si then
      ⟨ys, st', nf + 1, nf + 1 == req⟩
    else
      ⟨ys, st', nf, false⟩

/-- Outcome of a whole `collect` call over a finite inbound message list. -/
structure CollectOut where
  yielded : List (Nat × Bool)
  st : AMState
  num_finishes : Nat
  remaining : List Message
deriving DecidableEq

/-- The receive loop of `ActorManager.collect`: messages are consumed in
order until the `break` fires; the unconsumed suffix is returned. -/
def collectLoop (ri si : Nat) (discard : Bool) (req : Nat) :
    AMState → Nat → List Message → CollectOut
  | st, nf, [] => ⟨[], st, nf, []⟩
  | st, nf, m :: rest =>
    let r := processMsg ri si discard req st nf m
    if r.done then ⟨r.yielded, r.st, r.num_finishes, rest⟩
    else
      let c := collectLoop ri si discard req r.st r.num_finishes rest
      ⟨r.yielded ++ c.yielded, c.st, c.num_finishes, c.remaining⟩

/-- `ActorManager.collect` with `num_finishes` starting at 0 (line 81). -/
def collect (ri si : Nat) (discard : Bool) (req : Nat)
    (st : AMState) (msgs : List Message) : CollectOut :=
  collectLoop ri si discard req st 0 msgs

/-- `required_actor_finishes` defaults to the number of actors
(lines 58-59). -/
def defaultRequired (numActors : Nat) (req : Option Nat) : Nat :=
  req.getD numActors

/-- A message counts toward the completion quorum exactly when both its
rollout index and its segment index match the requested ones
(lines 83 and 103). -/
def isQuorumMsg (ri si : Nat) (m : Message) : Bool :=
  m.rollout_index == ri && m.segment_index == si

/-- Follows the spec's words (the one spec-side definition, for comparison
with the source-side `processMsg`): "if envEnd is true, the per-environment
reward total is recorded" — a `defaultdict`-style update of the running
total for the message's environment. -/
def specTotalRewardUpdate : List (Nat × Int) → Nat → Int → List (Nat × Int)
  | [], env, r => [(env, r)]
  | (k, v) :: rest, env, r =>
    if k = env then (k, v + r) :: rest
    else (k, v) :: specTotalRewardUpdate rest env r

/-!
Part 2: `SimpleStore` (src/maro/rl/storage/simple_store.py).
Columns hold cells of type `Option Int`: `none` is Python's `None`, used as
the empty-filler of preallocated bounded columns.  A value supplied for a
column in `put`/`update` is either a list of cells or a non-list scalar
(`CVal.scalar`), which lets the model express `validate`'s `isinstance`
check.  Python exceptions become `StoreErr`; `StoreMisalignment` is raised
at two distinct sites (the key-set check of `put`, line 84, and the
equal-length check of `validate`, line 161), kept apart as
`schemaMismatch` and `lengthMismatch`.  Operations that can fail after
having already mutated (the assignment loops of `update` and the extend
loop of unbounded `put`) return the partially mutated data together with
an optional error, exactly as the Python store object would be left. -/

/-- Python exceptions observable from `SimpleStore`'s operations.
`schemaMismatch` and `lengthMismatch` are both `StoreMisalignment` in the
source, with different messages (lines 84 and 161); `typeError` is the
`TypeError` of `validate` (line 157); `valueError` covers the constructor's
and `_get_update_indexes`'s `ValueError`s (lines 36 and 133); `keyError`
and `indexError` are Python's implicit dict/list errors. -/
inductive StoreErr
  | valueError
  | typeError
  | schemaMismatch
  | lengthMismatch
  | keyError
  | indexError
deriving DecidableEq

/-- One stored cell; `none` is Python's `None`. -/
abbrev Cell := Option Int

/-- A value supplied for one column: a proper list, or a non-list scalar. -/
inductive CVal
  | vlist (xs : List Cell)
  | scalar
deriving DecidableEq

/-- The `contents` argument of `put`/`update`: an insertion-ordered
dictionary, column name to supplied value. -/
abbrev Contents := List (String × CVal)

/-- The internal `self.data`: an insertion-ordered dictionary, column name
to list of cells. -/
abbrev Data := List (String × List Cell)

/-- The keys of an association list, in order. -/
def keysOf {α : Type} (l : List (String × α)) : List String :=
  l.map (·.1)

/-- Python set equality of two key lists. -/
def keySetEq (a b : List String) : Bool :=
  a.all (fun k => b.contains k) && b.all (fun k => a.contains k)

/-- Dict lookup `self.data[key]`: the value of the first entry named `k`. -/
def lookupCol : Data → String → Option (List Cell)
  | [], _ => none
  | (k1, v) :: rest, k => if k1 = k then some v else lookupCol rest k

/-- Replace the column named `k` (every entry with that name) by `c`. -/
def setCol (data : Data) (k : String) (c : List Cell) : Data :=
  data.map (fun kv => if kv.1 = k then (kv.1, c) else kv)

/-- Python index normalisation: a negative index counts from the end. -/
def pyNorm (i : Int) (len : Nat) : Int :=
  if i < 0 then i + len else i

/-- The index is valid for a list of length `len` (no `IndexError`). -/
def pyIdxOK (i : Int) (len : Nat) : Prop :=
  0 ≤ pyNorm i len ∧ pyNorm i len < len

instance (i : Int) (len : Nat) : Decidable (pyIdxOK i len) := by
  unfold pyIdxOK
  infer_instance

/-- Python list item assignment `l[i] = v`, with the negative-index
convention; `none` is an `IndexError`. -/
def pyListSet (l : List Cell) (i : Int) (v : Cell) : Option (List Cell) :=
  if 0 ≤ pyNorm i l.length ∧ pyNorm i l.length < l.length then
    some (l.set (pyNorm i l.length).toNat v)
  else none

/-- Python `range(a, b)` over integers. -/
def intRange (a b : Int) : List Int :=
  (List.range (b - a).toNat).map (fun i : Nat => a + (i : Int))

/-- The state of a `SimpleStore` (`__init__`, lines 33-41), after a
successful construction. -/
structure SimpleStore where
  keys : List String
  capacity : Int
  overwrite_type : String
  data : Data
  size : Nat
deriving DecidableEq

/-- The initial `self.data` dict comprehension (lines 40 and 120): empty
columns when unbounded, `capacity` `None`-cells per column when bounded
(`List.replicate` of `toNat` matches Python's `[None] * c`, which is empty
for non-positive `c`). -/
def initData (keys : List String) (capacity : Int) : Data :=
  keys.map (fun k =>
    (k, if capacity == -1 then [] else List.replicate capacity.toNat none))

/-- `SimpleStore.__init__` (lines 33-41): `overwrite_type` is a string or
`None` and must be `"rolling"` or `"random"`, else `ValueError`. -/
def initStore (keys : List String) (capacity : Int)
    (overwriteType : Option String) : Except StoreErr SimpleStore :=
  if overwriteType != some "rolling" && overwriteType != some "random" then
    .error .valueError
  else
    .ok ⟨keys, capacity, overwriteType.getD "", initData keys capacity, 0⟩

/-- `SimpleStore.validate` (lines 153-161): `TypeError` if any value is not
a list, else `StoreMisalignment` if any list's length differs from the
first column's; an empty dict hits `contents.keys()[0]`, an `IndexError`. -/
def validate (contents : Contents) : Option StoreErr :=
  if contents.any (fun kv =>
      match kv.2 with | .vlist _ => false | .scalar => true) then
    some .typeError
  else
    match contents with
    | [] => some .indexError
    | (_, v) :: _ =>
      match v with
      | .scalar => some .typeError
      | .vlist ref =>
        if contents.any (fun kv =>
            match kv.2 with
            | .vlist xs => xs.length != ref.length
            | .scalar => true) then
          some .lengthMismatch
        else
          none

/-- The inner assignment loop of `SimpleStore.update` for one column:
`for index, value in zip(indexes, val): self.data[key][index] = value`
(lines 112-114).  The zip stops at the shorter of `indexes` and the column
value; each iteration looks the key up (`KeyError` if absent) and assigns
(`IndexError` if out of range), leaving earlier writes in place. -/
def updateColumn (data : Data) (k : String) :
    List Int → List Cell → Data × Option StoreErr
  | [], _ => (data, none)
  | _, [] => (data, none)
  | i :: is, v :: vs =>
    match lookupCol data k with
    | none => (data, some .keyError)
    | some col =>
      match pyListSet col i v with
      | none => (data, some .indexError)
      | some col' => updateColumn (setCol data k col') k is vs

/-- The outer loop of `SimpleStore.update` over `contents.items()`
(line 112); a non-list value makes `zip` raise `TypeError` before any
assignment of that column. -/
def updateData (indexes : List Int) : Data → Contents → Data × Option StoreErr
  | data, [] => (data, none)
  | data, (_, .scalar) :: _ => (data, some .typeError)
  | data, (k, .vlist xs) :: rest =>
    match updateColumn data k indexes xs with
    | (d', none) => updateData indexes d' rest
    | (d', some e) => (d', some e)

/-- `SimpleStore.update` (lines 99-116): validate, then write column by
column.  Returns the (possibly partially mutated) store and the error, if
any; on success Python returns the `indexes` argument unchanged. -/
def SimpleStore.update (s : SimpleStore) (indexes : List Int)
    (contents : Contents) : SimpleStore × Option StoreErr :=
  match validate contents with
  | some e => (s, some e)
  | none =>
    let r := updateData indexes s.data contents
    ({ s with data := r.1 }, r.2)

/-- `SimpleStore._get_update_indexes` (lines 131-151).  The unseeded
`np.random.choice(size, num_overwrites, replace=False)` of the random
policy is an injected sampling source `rand size count`. -/
def SimpleStore.getUpdateIndexes (s : SimpleStore) (addedSize : Nat)
    (overwriteIndexes : Option (List Int)) (rand : Nat → Nat → List Nat) :
    Except StoreErr (List Int) :=
  if (addedSize : Int) > s.capacity then
    .error .valueError
  else if (s.size : Int) + addedSize - s.capacity < 0 then
    .ok (intRange s.size ((s.size : Int) + addedSize))
  else
    match overwriteIndexes with
    | some idxs => .ok (intRange s.size s.capacity ++ idxs)
    | none =>
      if s.overwrite_type == "rolling" then
        .ok (intRange ((s.size : Int) - s.capacity)
          (((s.size : Int) - s.capacity) + addedSize))
      else
        .ok (intRange s.size s.capacity ++
          (rand s.size ((s.size : Int) + addedSize - s.capacity).toNat).map
            (fun n => (n : Int)))

/-- The extend loop of unbounded `put`:
`for key, val in contents.items(): self.data[key].extend(val)`
(lines 89-90), with Python's `KeyError` on a missing key and `TypeError`
on extending by a non-list, aborting mid-loop. -/
def extendAll : Data → Contents → Data × Option StoreErr
  | data, [] => (data, none)
  | data, (_, .scalar) :: _ => (data, some .typeError)
  | data, (k, .vlist xs) :: rest =>
    match lookupCol data k with
    | none => (data, some .keyError)
    | some col => extendAll (setCol data k (col ++ xs)) rest

/-- The `added_size` of `put` (lines 86-87): the length of the first
column's value (1 for a non-list value). -/
def contentsAddedSize : Contents → Nat
  | [] => 0
  | (_, .vlist xs) :: _ => xs.length
  | (_, .scalar) :: _ => 1

/-- `SimpleStore.put` (lines 68-97): the key-set check against
`len(self.data) > 0` (the number of columns of the data dict, lines 81-84),
`validate`, then either the unbounded extend path or the bounded
`_get_update_indexes` + `update` path with
`size = min(capacity, size + added_size)`.  Returns the store as left by
the call and either the written indexes or the error raised. -/
def SimpleStore.put (s : SimpleStore) (contents : Contents)
    (overwriteIndexes : Option (List Int)) (rand : Nat → Nat → List Nat) :
    SimpleStore × Except StoreErr (List Int) :=
  if s.data.length > 0 &&
      !keySetEq (keysOf s.data) (keysOf contents) then
    (s, .error .schemaMismatch)
  else
    match validate contents with
    | some e => (s, .error e)
    | none =>
      let addedSize := contentsAddedSize contents
      if s.capacity == -1 then
        let r := extendAll s.data contents
        match r.2 with
        | some e => ({ s with data := r.1 }, .error e)
        | none =>
          ({ s with data := r.1, size := s.size + addedSize },
            .ok ((List.range addedSize).map (fun i => ((s.size + i : Nat) : Int))))
      else
        match s.getUpdateIndexes addedSize overwriteIndexes rand with
        | .error e => (s, .error e)
        | .ok writeIndexes =>
          let r := s.update writeIndexes contents
          match r.2 with
          | some e => (r.1, .error e)
          | none =>
            ({ r.1 with size := min s.capacity.toNat (s.size + addedSize) },
              .ok writeIndexes)

/-- Python list subscript `l[i]` with the negative-index convention;
`none` is an `IndexError`. -/
def pyListGet (l : List Cell) (i : Int) : Option Cell :=
  let j : Int := if i < 0 then i + l.length else i
  if 0 ≤ j ∧ j < l.length then l.get? j.toNat else none

/-- The comprehension `[self.data[k][i] for i in indexes]` for one column. -/
def selectIdxs (col : List Cell) : List Int → Except StoreErr (List Cell)
  | [] => .ok []
  | i :: is =>
    match pyListGet col i with
    | none => .error .indexError
    | some v => (selectIdxs col is).map (fun r => v :: r)

/-- The dict comprehension of `SimpleStore.get` over the data's keys. -/
def getData : Data → List Int → Except StoreErr Data
  | [], _ => .ok []
  | (k, col) :: rest, idxs => do
    let xs ← selectIdxs col idxs
    let r ← getData rest idxs
    .ok ((k, xs) :: r)

/-- `SimpleStore.get` (lines 63-66): the whole data dict when `indexes` is
`None`, else the per-column projection at `indexes`. -/
def SimpleStore.get (s : SimpleStore) (indexes : Option (List Int)) :
    Except StoreErr Data :=
  match indexes with
  | none => .ok s.data
  | some idxs => getData s.data idxs

/-- `SimpleStore.clear` (lines 118-121). -/
def SimpleStore.clear (s : SimpleStore) : SimpleStore :=
  { s with data := initData s.keys s.capacity, size := 0 }

/-- A sequence of `put` calls with no explicit overwrite indexes; `none`
when any of them raises. -/
def putAll (rand : Nat → Nat → List Nat) :
    SimpleStore → List Contents → Option SimpleStore
  | s, [] => some s
  | s, c :: rest =>
    match s.put c none rand with
    | (s', .ok _) => putAll rand s' rest
    | (_, .error _) => none

/-- Apply `f` to every supplied column list (scalars kept as they are). -/
def mapVals (f : List Cell → List Cell) (c : Contents) : Contents :=
  c.map (fun kv => (kv.1,
    match kv.2 with
    | CVal.vlist xs => CVal.vlist (f xs)
    | CVal.scalar => CVal.scalar))

/-- The cross-column physical-length invariant of claim C6: every column's
length is `size` in unbounded mode and `capacity` in bounded mode. -/
def lenInv (s : SimpleStore) : Prop :=
  ∀ kv ∈ s.data, kv.2.length = if s.capacity = -1 then s.size else s.capacity.toNat

instance (s : SimpleStore) : Decidable (lenInv s) := by
  unfold lenInv; infer_instance

/-!
Theorems.  Helper lemmas come first, then one theorem per claim (with its
witness or counterexample).
-/

/-- The quorum count after one message: incremented exactly on a quorum
message. -/
theorem processMsg_num_finishes (ri si : Nat) (d : Bool) (req : Nat)
    (st : AMState) (nf : Nat) (m : Message) :
    (processMsg ri si d req st nf m).num_finishes =
      if isQuorumMsg ri si m then nf + 1 else nf := by
  by_cases h1 : m.rollout_index = ri <;> by_cases h2 : m.segment_index = si <;>
    simp [processMsg, isQuorumMsg, h1, h2]

/-- The break test after one message: fires exactly on a quorum message
that completes the quorum. -/
theorem processMsg_done (ri si : Nat) (d : Bool) (req : Nat)
    (st : AMState) (nf : Nat) (m : Message) :
    (processMsg ri si d req st nf m).done =
      (isQuorumMsg ri si m && (nf + 1 == req)) := by
  by_cases h1 : m.rollout_index = ri <;> by_cases h2 : m.segment_index = si <;>
    simp [processMsg, isQuorumMsg, h1, h2]

/-- The receive loop breaks on a message whose step fires the break test:
the rest of the inbound messages stays unconsumed. -/
theorem collectLoop_rem_break (ri si : Nat) (d : Bool) (req : Nat)
    (st : AMState) (nf : Nat) (p : Message) (rest : List Message)
    (hd : (processMsg ri si d req st nf p).done = true) :
    (collectLoop ri si d req st nf (p :: rest)).remaining = rest := by
  simp [collectLoop, hd]

/-- The receive loop goes on past a message whose step does not fire the
break test. -/
theorem collectLoop_rem_go (ri si : Nat) (d : Bool) (req : Nat)
    (st : AMState) (nf : Nat) (p : Message) (rest : List Message)
    (hd : (processMsg ri si d req st nf p).done = false) :
    (collectLoop ri si d req st nf (p :: rest)).remaining =
      (collectLoop ri si d req (processMsg ri si d req st nf p).st
        (processMsg ri si d req st nf p).num_finishes rest).remaining := by
  simp [collectLoop, hd]

/-- When the quorum-completing message is reached, the loop breaks and
leaves the rest of the inbound messages unconsumed. -/
theorem collectLoop_stops (ri si : Nat) (d : Bool) (req : Nat)
    (m : Message) (post : List Message) (hm : isQuorumMsg ri si m = true) :
    ∀ (pre : List Message) (st : AMState) (nf : Nat),
      nf + pre.countP (isQuorumMsg ri si) + 1 = req →
      (collectLoop ri si d req st nf (pre ++ m :: post)).remaining = post := by
  intro pre
  induction pre with
  | nil =>
    intro st nf h
    have h' : nf + 1 = req := by simpa using h
    have hd : (processMsg ri si d req st nf m).done = true := by
      rw [processMsg_done, hm, h']
      simp
    rw [List.nil_append]
    exact collectLoop_rem_break ri si d req st nf m post hd
  | cons p pre ih =>
    intro st nf h
    simp only [List.countP_cons] at h
    by_cases hq : isQuorumMsg ri si p = true
    · simp [hq] at h
      have hd : (processMsg ri si d req st nf p).done = false := by
        rw [processMsg_done, hq]
        have hne : ¬(nf + 1 = req) := by omega
        simp [hne]
      have hnf : (processMsg ri si d req st nf p).num_finishes = nf + 1 := by
        rw [processMsg_num_finishes, hq]
        simp
      rw [List.cons_append, collectLoop_rem_go ri si d req st nf p _ hd, hnf]
      exact ih _ _ (by omega)
    · have hq' : isQuorumMsg ri si p = false := by simpa using hq
      simp [hq'] at h
      have hd : (processMsg ri si d req st nf p).done = false := by
        rw [processMsg_done, hq']
        simp
      have hnf : (processMsg ri si d req st nf p).num_finishes = nf := by
        rw [processMsg_num_finishes, hq']
        simp
      rw [List.cons_append, collectLoop_rem_go ri si d req st nf p _ hd, hnf]
      exact ih _ _ (by omega)

/-- When the messages hold too few quorum messages, the loop consumes them
all. -/
theorem collectLoop_exhausts (ri si : Nat) (d : Bool) (req : Nat) :
    ∀ (msgs : List Message) (st : AMState) (nf : Nat),
      nf + msgs.countP (isQuorumMsg ri si) < req →
      (collectLoop ri si d req st nf msgs).remaining = [] := by
  intro msgs
  induction msgs with
  | nil => intro st nf _; simp [collectLoop]
  | cons p rest ih =>
    intro st nf h
    simp only [List.countP_cons] at h
    by_cases hq : isQuorumMsg ri si p = true
    · simp [hq] at h
      have hd : (processMsg ri si d req st nf p).done = false := by
        rw [processMsg_done, hq]
        have hne : ¬(nf + 1 = req) := by omega
        simp [hne]
      have hnf : (processMsg ri si d req st nf p).num_finishes = nf + 1 := by
        rw [processMsg_num_finishes, hq]
        simp
      rw [collectLoop_rem_go ri si d req st nf p _ hd, hnf]
      exact ih _ _ (by omega)
    · have hq' : isQuorumMsg ri si p = false := by simpa using hq
      simp [hq'] at h
      have hd : (processMsg ri si d req st nf p).done = false := by
        rw [processMsg_done, hq']
        simp
      have hnf : (processMsg ri si d req st nf p).num_finishes = nf := by
        rw [processMsg_num_finishes, hq']
        simp
      rw [collectLoop_rem_go ri si d req st nf p _ hd, hnf]
      exact ih _ _ (by omega)

/-- C1: within one `collect` call, a message whose rollout index matches is
accepted (counters bumped and `(experiences, env_end)` yielded) exactly
when its segment index matches or `discard_stale_experiences` is false, and
it bumps the quorum count exactly when its segment index matches. -/
theorem collect_accept_iff_quorum_iff (ri si : Nat) (d : Bool) (req : Nat)
    (st : AMState) (nf : Nat) (m : Message) (h : m.rollout_index = ri) :
    ((processMsg ri si d req st nf m).yielded = [(m.experiences, m.env_end)]
      ↔ (m.segment_index = si ∨ d = false)) ∧
    (¬(m.segment_index = si ∨ d = false) →
      (processMsg ri si d req st nf m).yielded = [] ∧
      (processMsg ri si d req st nf m).st = st) ∧
    ((m.segment_index = si ∨ d = false) →
      (processMsg ri si d req st nf m).st.total_experiences_collected =
        st.total_experiences_collected + m.num_experiences ∧
      (processMsg ri si d req st nf m).st.total_env_steps =
        st.total_env_steps + m.num_steps) ∧
    (processMsg ri si d req st nf m).num_finishes =
      (if m.segment_index = si then nf + 1 else nf) := by
  have hri : (m.rollout_index != ri) = false := by simp [h]
  unfold processMsg
  by_cases h2 : m.segment_index = si
  · have h2b : (m.segment_index == si) = true := by simp [h2]
    simp [hri, h2b, h2]
  · have h2b : (m.segment_index == si) = false := by simp [h2]
    rcases d with _ | _
    · simp [hri, h2b, h2]
    · simp [hri, h2b, h2]

/-- Witness for C1: a stale-segment message under `discard_stale = false`
is yielded. -/
theorem collect_accept_iff_quorum_iff_witness :
    (processMsg 1 2 false 3 ⟨0, 0, []⟩ 0 ⟨1, 9, 4, 5, true, 2, 7, 0⟩).yielded
      = [(7, true)] :=
  (collect_accept_iff_quorum_iff 1 2 false 3 ⟨0, 0, []⟩ 0
    ⟨1, 9, 4, 5, true, 2, 7, 0⟩ rfl).1.mpr (Or.inr rfl)

/-- C2 counterexample: an accepted message with `env_end = true` leaves the
coordinator's per-environment reward mapping untouched (`collect` only logs
`total_reward`, line 100); the spec-side update `specTotalRewardUpdate`
would have recorded it. -/
theorem collect_reward_counterexample :
    (⟨5, 2, 10, 4, true, 7, 99, 3⟩ : Message).env_end = true ∧
    (processMsg 5 2 true 3 ⟨0, 0, []⟩ 0 ⟨5, 2, 10, 4, true, 7, 99, 3⟩).yielded
      = [(99, true)] ∧
    (processMsg 5 2 true 3 ⟨0, 0, []⟩ 0 ⟨5, 2, 10, 4, true, 7, 99, 3⟩).st.total_reward
      = [] ∧
    specTotalRewardUpdate [] 3 7 = [(3, 7)] ∧
    (processMsg 5 2 true 3 ⟨0, 0, []⟩ 0 ⟨5, 2, 10, 4, true, 7, 99, 3⟩).st.total_reward
      ≠ specTotalRewardUpdate ((⟨0, 0, []⟩ : AMState)).total_reward
          ((⟨5, 2, 10, 4, true, 7, 99, 3⟩ : Message)).source
          ((⟨5, 2, 10, 4, true, 7, 99, 3⟩ : Message)).total_reward := by
  decide

/-- C2 amended: for an accepted message, the experience and step counters
increase by the message's `num_experiences` and `num_steps`, while the
per-environment reward mapping is unchanged (the reward is only logged). -/
theorem collect_accepted_counters (ri si : Nat) (d : Bool) (req : Nat)
    (st : AMState) (nf : Nat) (m : Message) (h : m.rollout_index = ri)
    (hacc : m.segment_index = si ∨ d = false) :
    (processMsg ri si d req st nf m).st.total_experiences_collected =
      st.total_experiences_collected + m.num_experiences ∧
    (processMsg ri si d req st nf m).st.total_env_steps =
      st.total_env_steps + m.num_steps ∧
    (processMsg ri si d req st nf m).st.total_reward = st.total_reward := by
  by_cases h2 : m.segment_index = si
  · simp [processMsg, h, h2]
  · have hd : d = false := by
      rcases hacc with h3 | h3
      · exact absurd h3 h2
      · exact h3
    simp [processMsg, h, h2, hd]

/-- Witness for C2's amended theorem. -/
theorem collect_accepted_counters_witness :
    (processMsg 5 2 true 3 ⟨1, 2, [(0, 4)]⟩ 0 ⟨5, 2, 10, 4, true, 7, 99, 3⟩).st.total_experiences_collected
      = 11 ∧
    (processMsg 5 2 true 3 ⟨1, 2, [(0, 4)]⟩ 0 ⟨5, 2, 10, 4, true, 7, 99, 3⟩).st.total_env_steps
      = 6 ∧
    (processMsg 5 2 true 3 ⟨1, 2, [(0, 4)]⟩ 0 ⟨5, 2, 10, 4, true, 7, 99, 3⟩).st.total_reward
      = [(0, 4)] :=
  collect_accepted_counters 5 2 true 3 ⟨1, 2, [(0, 4)]⟩ 0
    ⟨5, 2, 10, 4, true, 7, 99, 3⟩ rfl (Or.inl rfl)

/-- C3: `collect` stops exactly when the quorum count reaches the required
number of finishes — right after the quorum-completing message, the
remaining inbound messages are left unconsumed; and with fewer quorum
messages than required, every inbound message is consumed. -/
theorem collect_terminates_at_quorum (ri si : Nat) (d : Bool) (req : Nat)
    (st : AMState) (pre : List Message) (m : Message) (post : List Message)
    (h1 : pre.countP (isQuorumMsg ri si) + 1 = req)
    (h2 : isQuorumMsg ri si m = true) :
    (collect ri si d req st (pre ++ m :: post)).remaining = post ∧
    ∀ msgs : List Message, msgs.countP (isQuorumMsg ri si) < req →
      (collect ri si d req st msgs).remaining = [] := by
  constructor
  · exact collectLoop_stops ri si d req m post h2 pre st 0 (by omega)
  · intro msgs hlt
    exact collectLoop_exhausts ri si d req msgs st 0 (by omega)

/-- Witness for C3: the spec's coordinator scenario — 3 peers,
`required_actor_finishes` defaulting to 3, three on-time results for
(rollout 5, segment 2) and a fourth unrelated message: exactly 3 batches
are yielded, the counters increase by the sums of the messages'
`num_experiences` and `num_steps`, and the fourth message is left
unconsumed; with only 2 on-time results, all messages are consumed. -/
theorem collect_terminates_at_quorum_witness :
    (collect 5 2 true (defaultRequired 3 none) ⟨0, 0, []⟩
      [⟨5, 2, 10, 4, false, 0, 11, 1⟩, ⟨5, 2, 20, 5, false, 0, 12, 2⟩,
        ⟨5, 2, 30, 6, false, 0, 13, 3⟩, ⟨9, 9, 1, 1, false, 0, 14, 4⟩]).remaining
      = [⟨9, 9, 1, 1, false, 0, 14, 4⟩] ∧
    (collect 5 2 true (defaultRequired 3 none) ⟨0, 0, []⟩
      [⟨5, 2, 10, 4, false, 0, 11, 1⟩, ⟨5, 2, 20, 5, false, 0, 12, 2⟩,
        ⟨5, 2, 30, 6, false, 0, 13, 3⟩, ⟨9, 9, 1, 1, false, 0, 14, 4⟩]).yielded
      = [(11, false), (12, false), (13, false)] ∧
    (collect 5 2 true (defaultRequired 3 none) ⟨0, 0, []⟩
      [⟨5, 2, 10, 4, false, 0, 11, 1⟩, ⟨5, 2, 20, 5, false, 0, 12, 2⟩,
        ⟨5, 2, 30, 6, false, 0, 13, 3⟩, ⟨9, 9, 1, 1, false, 0, 14, 4⟩]).st
      = ⟨60, 15, []⟩ ∧
    (collect 5 2 true (defaultRequired 3 none) ⟨0, 0, []⟩
      [⟨5, 2, 10, 4, false, 0, 11, 1⟩, ⟨5, 2, 20, 5, false, 0, 12, 2⟩]).remaining
      = [] :=
  ⟨(collect_terminates_at_quorum 5 2 true (defaultRequired 3 none) ⟨0, 0, []⟩
      [⟨5, 2, 10, 4, false, 0, 11, 1⟩, ⟨5, 2, 20, 5, false, 0, 12, 2⟩]
      ⟨5, 2, 30, 6, false, 0, 13, 3⟩ [⟨9, 9, 1, 1, false, 0, 14, 4⟩]
      (by decide) (by decide)).1,
    by decide, by decide,
    (collect_terminates_at_quorum 5 2 true (defaultRequired 3 none) ⟨0, 0, []⟩
      [⟨5, 2, 10, 4, false, 0, 11, 1⟩, ⟨5, 2, 20, 5, false, 0, 12, 2⟩]
      ⟨5, 2, 30, 6, false, 0, 13, 3⟩ [⟨9, 9, 1, 1, false, 0, 14, 4⟩]
      (by decide) (by decide)).2
      [⟨5, 2, 10, 4, false, 0, 11, 1⟩, ⟨5, 2, 20, 5, false, 0, 12, 2⟩]
      (by decide)⟩

/-! Association-list lemmas for the store's data dict. -/

theorem lookupCol_cons (k1 : String) (v1 : List Cell) (rest : Data)
    (k : String) :
    lookupCol ((k1, v1) :: rest) k =
      if k1 = k then some v1 else lookupCol rest k := rfl

theorem setCol_cons (k1 : String) (v1 : List Cell) (rest : Data)
    (k : String) (c : List Cell) :
    setCol ((k1, v1) :: rest) k c =
      (if k1 = k then (k1, c) else (k1, v1)) :: setCol rest k c := by
  by_cases h : k1 = k <;> simp [setCol, h]

theorem keysOf_cons {α : Type} (kv : String × α) (rest : List (String × α)) :
    keysOf (kv :: rest) = kv.1 :: keysOf rest := rfl

theorem keysOf_setCol (data : Data) (k : String) (c : List Cell) :
    keysOf (setCol data k c) = keysOf data := by
  induction data with
  | nil => rfl
  | cons kv rest ih =>
    obtain ⟨k1, v1⟩ := kv
    rw [setCol_cons]
    by_cases h : k1 = k
    · rw [if_pos h, keysOf_cons, keysOf_cons, ih]
    · rw [if_neg h, keysOf_cons, keysOf_cons, ih]

theorem lookupCol_mem (data : Data) (k : String) (c : List Cell)
    (h : lookupCol data k = some c) : (k, c) ∈ data := by
  induction data with
  | nil => simp [lookupCol] at h
  | cons kv rest ih =>
    obtain ⟨k1, v1⟩ := kv
    rw [lookupCol_cons] at h
    by_cases hk : k1 = k
    · rw [if_pos hk] at h
      injection h with h
      subst hk
      subst h
      exact List.mem_cons_self _ _
    · rw [if_neg hk] at h
      exact List.mem_cons_of_mem _ (ih h)

theorem lookupCol_setCol_self (data : Data) (k : String) (c : List Cell)
    (h : k ∈ keysOf data) : lookupCol (setCol data k c) k = some c := by
  induction data with
  | nil => simp [keysOf] at h
  | cons kv rest ih =>
    obtain ⟨k1, v1⟩ := kv
    rw [setCol_cons]
    by_cases hk : k1 = k
    · rw [if_pos hk, lookupCol_cons, if_pos hk]
    · have h' : k ∈ keysOf rest := by
        rw [keysOf_cons] at h
        rcases List.mem_cons.mp h with h | h
        · exact absurd h.symm hk
        · exact h
      rw [if_neg hk, lookupCol_cons, if_neg hk]
      exact ih h'

theorem lookupCol_setCol_ne (data : Data) (k k' : String) (c : List Cell)
    (h : k' ≠ k) : lookupCol (setCol data k c) k' = lookupCol data k' := by
  induction data with
  | nil => rfl
  | cons kv rest ih =>
    obtain ⟨k1, v1⟩ := kv
    rw [setCol_cons]
    by_cases hk : k1 = k
    · have h1 : ¬ (k1 = k') := fun hx => h (hk ▸ hx ▸ rfl)
      rw [if_pos hk, lookupCol_cons, if_neg h1, lookupCol_cons, if_neg h1]
      exact ih
    · rw [if_neg hk, lookupCol_cons, lookupCol_cons]
      by_cases hk' : k1 = k'
      · rw [if_pos hk', if_pos hk']
      · rw [if_neg hk', if_neg hk']
        exact ih

theorem setCol_setCol (data : Data) (k : String) (c1 c2 : List Cell) :
    setCol (setCol data k c1) k c2 = setCol data k c2 := by
  induction data with
  | nil => rfl
  | cons kv rest ih =>
    obtain ⟨k1, v1⟩ := kv
    rw [setCol_cons]
    by_cases h : k1 = k
    · rw [if_pos h, setCol_cons, if_pos h, setCol_cons, if_pos h, ih]
    · rw [if_neg h, setCol_cons, if_neg h, setCol_cons, if_neg h, ih]

theorem setCol_not_mem (data : Data) (k : String) (c : List Cell)
    (h : k ∉ keysOf data) : setCol data k c = data := by
  induction data with
  | nil => rfl
  | cons kv rest ih =>
    obtain ⟨k1, v1⟩ := kv
    rw [keysOf_cons, List.mem_cons, not_or] at h
    have h1 : ¬ (k1 = k) := fun hx => h.1 hx.symm
    rw [setCol_cons, if_neg h1, ih h.2]

theorem setCol_lookup_self (data : Data) (k : String) (c : List Cell)
    (hnd : (keysOf data).Nodup) (h : lookupCol data k = some c) :
    setCol data k c = data := by
  induction data with
  | nil => rfl
  | cons kv rest ih =>
    obtain ⟨k1, v1⟩ := kv
    rw [keysOf_cons, List.nodup_cons] at hnd
    rw [lookupCol_cons] at h
    by_cases hk : k1 = k
    · rw [if_pos hk] at h
      injection h with h
      subst hk
      subst h
      rw [setCol_cons, if_pos rfl, setCol_not_mem rest k1 v1 hnd.1]
    · rw [if_neg hk] at h
      rw [setCol_cons, if_neg hk, ih hnd.2 h]

theorem mem_setCol (data : Data) (k : String) (c : List Cell)
    (kv : String × List Cell) (h : kv ∈ setCol data k c) :
    kv.2 = c ∨ kv ∈ data := by
  unfold setCol at h
  obtain ⟨kv0, hm, he⟩ := List.mem_map.mp h
  by_cases hb : kv0.1 = k
  · rw [if_pos hb] at he
    left
    rw [← he]
  · rw [if_neg hb] at he
    right
    rw [← he]
    exact hm

/-! Python list-assignment lemmas. -/

theorem pyListSet_length (l l' : List Cell) (i : Int) (v : Cell)
    (h : pyListSet l i v = some l') : l'.length = l.length := by
  unfold pyListSet at h
  split at h
  · injection h with h
    rw [← h, List.length_set]
  · exact absurd h (by simp)

theorem pyListSet_nat (l : List Cell) (j : Nat) (v : Cell)
    (h : j < l.length) :
    pyListSet l (j : Int) v = some (l.set j v) := by
  have h0 : ¬ ((j : Int) < 0) := by omega
  have h1 : (0 : Int) ≤ (j : Int) := by omega
  have h2 : ((j : Int)) < (l.length : Int) := by exact_mod_cast h
  simp [pyListSet, pyNorm, h0, h1, h2]

/-- Decidable equality for `Except` results. -/
instance {α β : Type} [DecidableEq α] [DecidableEq β] :
    DecidableEq (Except α β)
  | .error a, .error b =>
    if h : a = b then isTrue (by rw [h])
    else isFalse (by intro hx; injection hx with hx; exact h hx)
  | .error _, .ok _ => isFalse (by intro hx; exact Except.noConfusion hx)
  | .ok _, .error _ => isFalse (by intro hx; exact Except.noConfusion hx)
  | .ok a, .ok b =>
    if h : a = b then isTrue (by rw [h])
    else isFalse (by intro hx; injection hx with hx; exact h hx)

/-! Error-classification lemmas: which errors each operation can raise. -/

theorem updateColumn_no_schema (k : String) (idxs : List Int) :
    ∀ (xs : List Cell) (data : Data),
      (updateColumn data k idxs xs).2 ≠ some .schemaMismatch := by
  induction idxs with
  | nil => intro xs data; cases xs <;> simp [updateColumn]
  | cons i is ih =>
    intro xs data
    cases xs with
    | nil => simp [updateColumn]
    | cons v vs =>
      rw [updateColumn]
      cases hl : lookupCol data k with
      | none => simp
      | some col =>
        cases hs : pyListSet col i v with
        | none => simp [hs]
        | some col' => simpa [hs] using ih vs (setCol data k col')

theorem updateData_no_schema (idxs : List Int) :
    ∀ (c : Contents) (data : Data),
      (updateData idxs data c).2 ≠ some .schemaMismatch := by
  intro c
  induction c with
  | nil => intro data; simp [updateData]
  | cons kv rest ih =>
    intro data
    obtain ⟨k, v⟩ := kv
    cases v with
    | scalar => simp [updateData]
    | vlist xs =>
      rw [updateData]
      cases hu : updateColumn data k idxs xs with
      | mk d' e =>
        cases e with
        | none => simpa using ih d'
        | some e' =>
          have h2 := updateColumn_no_schema k idxs xs data
          rw [hu] at h2
          simpa using h2

theorem validate_no_schema (c : Contents) :
    validate c ≠ some .schemaMismatch ∧ validate c ≠ some .valueError ∧
    validate c ≠ some .keyError := by
  unfold validate
  split
  · simp
  · split
    · simp
    · split
      · simp
      · split <;> simp

theorem update_no_schema (s : SimpleStore) (idxs : List Int) (c : Contents) :
    (s.update idxs c).2 ≠ some .schemaMismatch := by
  unfold SimpleStore.update
  cases hv : validate c with
  | some e =>
    have h2 := (validate_no_schema c).1
    rw [hv] at h2
    simpa using fun hx => h2 (by rw [hx])
  | none => simpa using updateData_no_schema idxs c s.data

theorem extendAll_no_schema :
    ∀ (c : Contents) (data : Data),
      (extendAll data c).2 ≠ some .schemaMismatch := by
  intro c
  induction c with
  | nil => intro data; simp [extendAll]
  | cons kv rest ih =>
    intro data
    obtain ⟨k, v⟩ := kv
    cases v with
    | scalar => simp [extendAll]
    | vlist xs =>
      rw [extendAll]
      cases hl : lookupCol data k with
      | none => simp
      | some col => simpa using ih (setCol data k (col ++ xs))

theorem getUpdateIndexes_err (s : SimpleStore) (n : Nat)
    (ow : Option (List Int)) (rand : Nat → Nat → List Nat) (e : StoreErr)
    (h : s.getUpdateIndexes n ow rand = .error e) : e = .valueError := by
  unfold SimpleStore.getUpdateIndexes at h
  split at h
  · injection h with h
    exact h.symm
  · repeat' split at h
    all_goals simp at h

/-- After the key-set check passes, `put` can no longer raise the
schema-mismatch error. -/
theorem put_no_schema_when_pass (s : SimpleStore) (contents : Contents)
    (ow : Option (List Int)) (rand : Nat → Nat → List Nat)
    (hpass : s.data.length = 0 ∨
      keySetEq (keysOf s.data) (keysOf contents) = true) :
    (s.put contents ow rand).2 ≠ .error .schemaMismatch := by
  unfold SimpleStore.put
  have hcond : (decide (s.data.length > 0) &&
      !keySetEq (keysOf s.data) (keysOf contents)) = false := by
    rcases hpass with h | h
    · simp [h]
    · simp [h]
  rw [hcond]
  simp only [Bool.false_eq_true, if_false]
  cases hv : validate contents with
  | some e =>
    have h2 := (validate_no_schema contents).1
    rw [hv] at h2
    simpa using fun hx => h2 (by rw [hx])
  | none =>
    simp only []
    by_cases hcap : (s.capacity == -1) = true
    · simp only [hcap, if_true]
      cases he : (extendAll s.data contents).2 with
      | none => simp [he]
      | some e =>
        have h2 := extendAll_no_schema contents s.data
        rw [he] at h2
        simp only [he]
        simpa using fun hx => h2 (by rw [hx])
    · have hcap' : (s.capacity == -1) = false := by
        cases hb : (s.capacity == -1)
        · rfl
        · exact absurd hb hcap
      simp only [hcap', Bool.false_eq_true, if_false]
      cases hg : s.getUpdateIndexes (contentsAddedSize contents) ow rand with
      | error e =>
        have h3 := getUpdateIndexes_err s (contentsAddedSize contents) ow rand e hg
        subst h3
        simp [hg]
      | ok widx =>
        simp only [hg]
        cases he : (s.update widx contents).2 with
        | none => simp [he]
        | some e =>
          have h2 := update_no_schema s widx contents
          rw [he] at h2
          simp only [he]
          simpa using fun hx => h2 (by rw [hx])

/-- C9 (code bug): constructing an unbounded store with the documented
default `overwrite_type=None` raises `ValueError`, because the membership
check of `__init__` (line 35) runs regardless of `capacity`. -/
theorem initStore_rejects_missing_policy :
    initStore ["a"] (-1) none = .error .valueError := by decide

/-- C7 counterexample: a freshly constructed store — columns declared but
no data stored yet (`size = 0`, all columns empty) — already rejects a put
whose key set differs, with the schema-mismatch `StoreMisalignment`:
`len(self.data)` (line 81) counts declared columns, not stored entries. -/
theorem put_keycheck_applies_when_empty :
    initStore ["a", "b"] (-1) (some "rolling") =
      .ok ⟨["a", "b"], -1, "rolling", [("a", []), ("b", [])], 0⟩ ∧
    (⟨["a", "b"], -1, "rolling", [("a", []), ("b", [])], 0⟩ : SimpleStore).size
      = 0 ∧
    (SimpleStore.put ⟨["a", "b"], -1, "rolling", [("a", []), ("b", [])], 0⟩
        [("a", .vlist [some 1])] none (fun _ _ => [])).2
      = .error .schemaMismatch := by
  refine ⟨by decide, rfl, by decide⟩

/-- C7 amended: `put` fails with the schema-mismatch error exactly when the
store has at least one declared column and the contents key set differs
from the store's — whether or not any data has been stored yet. -/
theorem put_schemaMismatch_iff (s : SimpleStore) (contents : Contents)
    (ow : Option (List Int)) (rand : Nat → Nat → List Nat) :
    (s.put contents ow rand).2 = .error .schemaMismatch ↔
      0 < s.data.length ∧
        keySetEq (keysOf s.data) (keysOf contents) = false := by
  constructor
  · intro h
    by_cases h1 : 0 < s.data.length
    · by_cases h2 : keySetEq (keysOf s.data) (keysOf contents) = true
      · exact absurd h (put_no_schema_when_pass s contents ow rand (Or.inr h2))
      · refine ⟨h1, ?_⟩
        cases hb : keySetEq (keysOf s.data) (keysOf contents)
        · rfl
        · exact absurd hb h2
    · have h1' : s.data.length = 0 := by omega
      exact absurd h (put_no_schema_when_pass s contents ow rand (Or.inl h1'))
  · intro ⟨h1, h2⟩
    unfold SimpleStore.put
    have hcond : (decide (s.data.length > 0) &&
        !keySetEq (keysOf s.data) (keysOf contents)) = true := by
      simp [h1, h2]
    rw [hcond]
    simp

/-- Any-scalar and unequal-lengths facts about `validate`. -/
theorem validate_typeError_of_scalar (c : Contents) (kv : String)
    (h : (kv, CVal.scalar) ∈ c) : validate c = some .typeError := by
  have hany : (c.any (fun kv =>
      match kv.2 with | .vlist _ => false | .scalar => true)) = true := by
    rw [List.any_eq_true]
    exact ⟨(kv, .scalar), h, rfl⟩
  unfold validate
  rw [hany]
  simp

theorem validate_lengthMismatch_of_unequal (c : Contents) (k1 k2 : String)
    (xs ys : List Cell)
    (h1 : (k1, CVal.vlist xs) ∈ c) (h2 : (k2, CVal.vlist ys) ∈ c)
    (h3 : xs.length ≠ ys.length)
    (h4 : ∀ kv ∈ c, kv.2 ≠ CVal.scalar) :
    validate c = some .lengthMismatch := by
  have hany : (c.any (fun kv =>
      match kv.2 with | .vlist _ => false | .scalar => true)) = false := by
    rw [List.any_eq_false]
    intro kv hkv
    have := h4 kv hkv
    cases hv : kv.2 with
    | vlist _ => simp
    | scalar => exact absurd hv this
  unfold validate
  rw [hany]
  simp only [Bool.false_eq_true, if_false]
  cases hc : c with
  | nil => rw [hc] at h1; simp at h1
  | cons hd tl =>
    obtain ⟨kh, vh⟩ := hd
    cases hv : vh with
    | scalar =>
      exfalso
      have := h4 (kh, vh) (by rw [hc]; exact List.mem_cons_self _ _)
      rw [hv] at this
      exact this rfl
    | vlist ref =>
      simp only []
      have hwit : ((kh, CVal.vlist ref) :: tl).any (fun kv =>
          match kv.2 with
          | .vlist zs => zs.length != ref.length
          | .scalar => true) = true := by
        rw [List.any_eq_true]
        by_cases hxs : xs.length = ref.length
        · refine ⟨(k2, .vlist ys), ?_, ?_⟩
          · rw [hc, hv] at h2
            exact h2
          · simp only []
            have : ys.length ≠ ref.length := fun hy => h3 (by omega)
            simpa using this
        · refine ⟨(k1, .vlist xs), ?_, ?_⟩
          · rw [hc, hv] at h1
            exact h1
          · simpa using hxs
      rw [hwit]
      simp

/-- C8 counterexample: a non-list value makes `put` fail with `TypeError`
(line 157), not with the column-length-mismatch `StoreMisalignment`. -/
theorem nonlist_put_typeError_counterexample :
    validate [("a", CVal.scalar)] = some .typeError ∧
    StoreErr.typeError ≠ StoreErr.lengthMismatch ∧
    (SimpleStore.put ⟨["a"], -1, "rolling", [("a", [])], 0⟩
        [("a", CVal.scalar)] none (fun _ _ => []))
      = (⟨["a"], -1, "rolling", [("a", [])], 0⟩, .error .typeError) := by
  refine ⟨by decide, by decide, by decide⟩

/-- C8 amended: for both `put` and `update`, unequal column lengths fail
with the column-length-mismatch `StoreMisalignment`, while a non-list value
fails with `TypeError`; in both cases the error is raised before any store
mutation (the store is returned unchanged). -/
theorem put_update_validate_errors (s : SimpleStore) (idxs : List Int)
    (c1 c2 : Contents) (ow : Option (List Int)) (rand : Nat → Nat → List Nat)
    (k1 k2 kv : String) (xs ys : List Cell)
    (h1 : (k1, CVal.vlist xs) ∈ c1) (h2 : (k2, CVal.vlist ys) ∈ c1)
    (h3 : xs.length ≠ ys.length)
    (h4 : ∀ kv ∈ c1, kv.2 ≠ CVal.scalar)
    (h5 : (kv, CVal.scalar) ∈ c2)
    (h6 : s.data.length = 0 ∨ keySetEq (keysOf s.data) (keysOf c1) = true)
    (h7 : s.data.length = 0 ∨ keySetEq (keysOf s.data) (keysOf c2) = true) :
    validate c1 = some .lengthMismatch ∧
    validate c2 = some .typeError ∧
    s.update idxs c1 = (s, some .lengthMismatch) ∧
    s.update idxs c2 = (s, some .typeError) ∧
    s.put c1 ow rand = (s, .error .lengthMismatch) ∧
    s.put c2 ow rand = (s, .error .typeError) := by
  have hv1 := validate_lengthMismatch_of_unequal c1 k1 k2 xs ys h1 h2 h3 h4
  have hv2 := validate_typeError_of_scalar c2 kv h5
  have hput : ∀ (c : Contents) (e : StoreErr), validate c = some e →
      (s.data.length = 0 ∨ keySetEq (keysOf s.data) (keysOf c) = true) →
      s.put c ow rand = (s, .error e) := by
    intro c e hv hp
    unfold SimpleStore.put
    have hcond : (decide (s.data.length > 0) &&
        !keySetEq (keysOf s.data) (keysOf c)) = false := by
      rcases hp with h | h <;> simp [h]
    rw [hcond]
    simp only [Bool.false_eq_true, if_false, hv]
  refine ⟨hv1, hv2, ?_, ?_, hput c1 _ hv1 h6, hput c2 _ hv2 h7⟩
  · unfold SimpleStore.update
    rw [hv1]
  · unfold SimpleStore.update
    rw [hv2]

/-- Witness for C8's amended theorem at the spec's own example
`put({"a": [1, 2], "b": [1]})` plus a scalar-valued contents. -/
theorem put_update_validate_errors_witness :
    validate [("a", CVal.vlist [some 1, some 2]), ("b", CVal.vlist [some 1])]
      = some .lengthMismatch ∧
    validate [("a", CVal.vlist [some 1]), ("b", CVal.scalar)]
      = some .typeError ∧
    SimpleStore.update ⟨["a", "b"], -1, "rolling", [("a", []), ("b", [])], 0⟩
        [0]
        [("a", CVal.vlist [some 1, some 2]), ("b", CVal.vlist [some 1])]
      = (⟨["a", "b"], -1, "rolling", [("a", []), ("b", [])], 0⟩,
          some .lengthMismatch) ∧
    SimpleStore.update ⟨["a", "b"], -1, "rolling", [("a", []), ("b", [])], 0⟩
        [0] [("a", CVal.vlist [some 1]), ("b", CVal.scalar)]
      = (⟨["a", "b"], -1, "rolling", [("a", []), ("b", [])], 0⟩,
          some .typeError) ∧
    SimpleStore.put ⟨["a", "b"], -1, "rolling", [("a", []), ("b", [])], 0⟩
        [("a", CVal.vlist [some 1, some 2]), ("b", CVal.vlist [some 1])]
        none (fun _ _ => [])
      = (⟨["a", "b"], -1, "rolling", [("a", []), ("b", [])], 0⟩,
          .error .lengthMismatch) ∧
    SimpleStore.put ⟨["a", "b"], -1, "rolling", [("a", []), ("b", [])], 0⟩
        [("a", CVal.vlist [some 1]), ("b", CVal.scalar)] none (fun _ _ => [])
      = (⟨["a", "b"], -1, "rolling", [("a", []), ("b", [])], 0⟩,
          .error .typeError) :=
  put_update_validate_errors
    ⟨["a", "b"], -1, "rolling", [("a", []), ("b", [])], 0⟩ [0]
    [("a", CVal.vlist [some 1, some 2]), ("b", CVal.vlist [some 1])]
    [("a", CVal.vlist [some 1]), ("b", CVal.scalar)] none (fun _ _ => [])
    "a" "b" "b" [some 1, some 2] [some 1]
    (by decide) (by decide) (by decide) (by decide) (by decide)
    (Or.inr (by decide)) (Or.inr (by decide))

/-! List-window lemmas for consecutive overwrites. -/

theorem take_succ_set (col : List Cell) (j : Nat) (v : Cell)
    (h : j < col.length) :
    (col.set j v).take (j + 1) = col.take j ++ [v] := by
  rw [List.set_eq_take_cons_drop v h, List.take_append_eq_append_take,
    List.take_take, List.length_take]
  have h1 : min (j + 1) j = j := by omega
  have h2 : min j col.length = j := by omega
  have h3 : j + 1 - j = 1 := by omega
  rw [h1, h2, h3]
  rfl

theorem drop_set_ge (col : List Cell) (j : Nat) (v : Cell) (d : Nat)
    (h : j < col.length) (hd : j + 1 ≤ d) :
    (col.set j v).drop d = col.drop d := by
  rw [List.set_eq_take_cons_drop v h, List.drop_append_eq_append_drop,
    List.length_take]
  have h2 : min j col.length = j := by omega
  rw [h2]
  have h3 : (col.take j).drop d = [] := by
    apply List.drop_eq_nil_of_le
    rw [List.length_take]
    omega
  rw [h3, List.nil_append]
  have h4 : d - j = (d - j - 1) + 1 := by omega
  rw [h4, List.drop_succ_cons, List.drop_drop]
  congr 1
  omega

/-! Key-membership lemmas. -/

theorem mem_keysOf_of_lookup (data : Data) (k : String) (col : List Cell)
    (h : lookupCol data k = some col) : k ∈ keysOf data :=
  List.mem_map.mpr ⟨(k, col), lookupCol_mem data k col h, rfl⟩

theorem lookup_of_mem_keysOf (data : Data) (k : String)
    (h : k ∈ keysOf data) : ∃ col, lookupCol data k = some col := by
  induction data with
  | nil => simp [keysOf] at h
  | cons kv rest ih =>
    obtain ⟨k1, v1⟩ := kv
    rw [lookupCol_cons]
    by_cases hk : k1 = k
    · exact ⟨v1, by rw [if_pos hk]⟩
    · rw [keysOf_cons] at h
      rcases List.mem_cons.mp h with h | h
      · exact absurd h.symm hk
      · rw [if_neg hk]
        exact ih h

theorem keySetEq_mem_right (a b : List String) (h : keySetEq a b = true) :
    ∀ k ∈ b, k ∈ a := by
  intro k hk
  unfold keySetEq at h
  rw [Bool.and_eq_true, List.all_eq_true, List.all_eq_true] at h
  have h2 := h.2 k hk
  simpa using h2

theorem keySetEq_mem_left (a b : List String) (h : keySetEq a b = true) :
    ∀ k ∈ a, k ∈ b := by
  intro k hk
  unfold keySetEq at h
  rw [Bool.and_eq_true, List.all_eq_true, List.all_eq_true] at h
  have h2 := h.1 k hk
  simpa using h2

/-- What a passing `validate` guarantees: non-empty contents, every value a
list, all lengths equal to the first column's (= `contentsAddedSize`). -/
theorem validate_none_facts (c : Contents) (h : validate c = none) :
    c ≠ [] ∧
    ∀ kv ∈ c, ∃ xs : List Cell, kv.2 = CVal.vlist xs ∧
      xs.length = contentsAddedSize c := by
  have hscal : ∀ kv ∈ c, kv.2 ≠ CVal.scalar := by
    intro kv hkv hx
    obtain ⟨kk, vv⟩ := kv
    simp only [] at hx
    subst hx
    have h2 := validate_typeError_of_scalar c kk hkv
    rw [h] at h2
    simp at h2
  have hnil : c ≠ [] := by
    intro hx
    rw [hx] at h
    simp [validate] at h
  refine ⟨hnil, ?_⟩
  intro kv hkv
  obtain ⟨kk, vv⟩ := kv
  have h1 := hscal (kk, vv) hkv
  cases hv : vv with
  | scalar => exact absurd (by rw [hv]) h1
  | vlist xs =>
    refine ⟨xs, rfl, ?_⟩
    cases hc : c with
    | nil => exact absurd hc hnil
    | cons hd tl =>
      obtain ⟨k0, v0⟩ := hd
      have h0 := hscal (k0, v0) (by rw [hc]; exact List.mem_cons_self _ _)
      cases hv0 : v0 with
      | scalar => exact absurd (by rw [hv0]) h0
      | vlist ref =>
        have hsz : contentsAddedSize ((k0, CVal.vlist ref) :: tl)
            = ref.length := rfl
        rw [hsz]
        by_contra hne
        have h3 : validate c = some .lengthMismatch := by
          apply validate_lengthMismatch_of_unequal c kk k0 xs ref
          · rw [← hv]
            exact hkv
          · rw [hc, hv0]
            exact List.mem_cons_self _ _
          · exact hne
          · exact hscal
        rw [h] at h3
        simp at h3

/-- Writing a batch at consecutive indexes `[j, j + |xs|)` of one column:
the window is replaced, everything else kept, no error. -/
theorem updateColumn_write_range (k : String) :
    ∀ (xs : List Cell) (j : Nat) (data : Data) (col : List Cell),
      (keysOf data).Nodup →
      lookupCol data k = some col →
      j + xs.length ≤ col.length →
      updateColumn data k
          ((List.range xs.length).map (fun i => ((j + i : Nat) : Int))) xs
        = (setCol data k (col.take j ++ xs ++ col.drop (j + xs.length)),
            none) := by
  intro xs
  induction xs with
  | nil =>
    intro j data col hnd hl hle
    have hcoleq : col.take j ++ ([] : List Cell) ++ col.drop (j + 0) = col := by
      simp [List.take_append_drop]
    rw [List.length_nil, List.range_zero, List.map_nil, updateColumn, hcoleq,
      setCol_lookup_self data k col hnd hl]
  | cons v vs ih =>
    intro j data col hnd hl hle
    have hjlt : j < col.length := by
      rw [List.length_cons] at hle
      omega
    have hidx : (List.range (v :: vs).length).map
          (fun i => ((j + i : Nat) : Int))
        = ((j : Nat) : Int) ::
            (List.range vs.length).map (fun i => (((j + 1) + i : Nat) : Int)) := by
      rw [List.length_cons, List.range_succ_eq_map, List.map_cons, List.map_map]
      congr 1
      have hfun : ((fun i => ((j + i : Nat) : Int)) ∘ Nat.succ)
          = (fun i => (((j + 1) + i : Nat) : Int)) := by
        funext i
        simp only [Function.comp_apply]
        congr 1
        omega
      rw [hfun]
    rw [hidx, updateColumn]
    have hset : pyListSet col ((j : Nat) : Int) v = some (col.set j v) :=
      pyListSet_nat col j v hjlt
    simp only [hl, hset]
    have hnd2 : (keysOf (setCol data k (col.set j v))).Nodup := by
      rw [keysOf_setCol]
      exact hnd
    have hmem : k ∈ keysOf data := mem_keysOf_of_lookup data k col hl
    have hl2 : lookupCol (setCol data k (col.set j v)) k = some (col.set j v) :=
      lookupCol_setCol_self data k (col.set j v) hmem
    have hle3 : j + (vs.length + 1) ≤ col.length := by
      rw [List.length_cons] at hle
      omega
    have hle2 : (j + 1) + vs.length ≤ (col.set j v).length := by
      rw [List.length_set]
      omega
    rw [ih (j + 1) (setCol data k (col.set j v)) (col.set j v) hnd2 hl2 hle2,
      setCol_setCol]
    have hwin : (col.set j v).take (j + 1) ++ vs ++
          (col.set j v).drop ((j + 1) + vs.length)
        = col.take j ++ (v :: vs) ++ col.drop (j + (v :: vs).length) := by
      rw [take_succ_set col j v hjlt,
        drop_set_ge col j v ((j + 1) + vs.length) hjlt (by omega)]
      have harith : (j + 1) + vs.length = j + (v :: vs).length := by
        rw [List.length_cons]
        omega
      rw [harith]
      simp [List.append_assoc]
    rw [hwin]

/-- Writing a batch at consecutive indexes `[j, j + n)` across all supplied
columns: no error, keys preserved, untouched columns kept, each supplied
column's window replaced. -/
theorem updateData_write_range (n j : Nat) :
    ∀ (c : Contents) (data : Data),
      (keysOf data).Nodup →
      (keysOf c).Nodup →
      (∀ kv ∈ c, kv.1 ∈ keysOf data) →
      (∀ kv ∈ c, ∃ xs : List Cell, kv.2 = CVal.vlist xs ∧ xs.length = n) →
      (∀ kv ∈ data, j + n ≤ kv.2.length) →
      (updateData ((List.range n).map (fun i => ((j + i : Nat) : Int)))
            data c).2 = none ∧
      keysOf (updateData ((List.range n).map (fun i => ((j + i : Nat) : Int)))
            data c).1 = keysOf data ∧
      (∀ key, key ∉ keysOf c →
        lookupCol (updateData
            ((List.range n).map (fun i => ((j + i : Nat) : Int))) data c).1 key
          = lookupCol data key) ∧
      (∀ key xs col, (key, CVal.vlist xs) ∈ c →
        lookupCol data key = some col →
        lookupCol (updateData
            ((List.range n).map (fun i => ((j + i : Nat) : Int))) data c).1 key
          = some (col.take j ++ xs ++ col.drop (j + n))) := by
  intro c
  induction c with
  | nil =>
    intro data hndd hndc hsub hvl hlen
    refine ⟨rfl, rfl, fun key _ => rfl, fun key xs col h _ => ?_⟩
    simp at h
  | cons kv rest ih =>
    intro data hndd hndc hsub hvl hlen
    obtain ⟨k, v⟩ := kv
    obtain ⟨xs, hv, hxs⟩ := hvl (k, v) (List.mem_cons_self _ _)
    have hv' : v = CVal.vlist xs := hv
    subst hv'
    rw [keysOf_cons, List.nodup_cons] at hndc
    have hkmem : k ∈ keysOf data := hsub (k, CVal.vlist xs)
      (List.mem_cons_self _ _)
    obtain ⟨col, hcol⟩ := lookup_of_mem_keysOf data k hkmem
    have hcle : j + n ≤ col.length := hlen (k, col) (lookupCol_mem data k col hcol)
    have hcolw := updateColumn_write_range k xs j data col hndd hcol
      (by rw [hxs]; exact hcle)
    rw [hxs] at hcolw
    rw [updateData, hcolw]
    have hWlen : (col.take j ++ xs ++ col.drop (j + n)).length = col.length := by
      simp only [List.length_append, List.length_take, List.length_drop, hxs]
      omega
    have hndd2 : (keysOf (setCol data k
        (col.take j ++ xs ++ col.drop (j + n)))).Nodup := by
      rw [keysOf_setCol]
      exact hndd
    have hsub2 : ∀ kv ∈ rest, kv.1 ∈ keysOf (setCol data k
        (col.take j ++ xs ++ col.drop (j + n))) := by
      intro kv2 hkv2
      rw [keysOf_setCol]
      exact hsub kv2 (List.mem_cons_of_mem _ hkv2)
    have hvl2 : ∀ kv ∈ rest, ∃ ys : List Cell, kv.2 = CVal.vlist ys ∧
        ys.length = n := fun kv2 hkv2 => hvl kv2 (List.mem_cons_of_mem _ hkv2)
    have hlen2 : ∀ kv ∈ setCol data k (col.take j ++ xs ++ col.drop (j + n)),
        j + n ≤ kv.2.length := by
      intro kv2 hkv2
      rcases mem_setCol data k _ kv2 hkv2 with hW | hmem2
      · rw [hW, hWlen]
        exact hcle
      · exact hlen kv2 hmem2
    obtain ⟨ih1, ih2, ih3, ih4⟩ := ih (setCol data k
      (col.take j ++ xs ++ col.drop (j + n))) hndd2 hndc.2 hsub2 hvl2 hlen2
    refine ⟨ih1, by rw [ih2, keysOf_setCol], ?_, ?_⟩
    · intro key hkey
      rw [keysOf_cons, List.mem_cons, not_or] at hkey
      rw [ih3 key hkey.2,
        lookupCol_setCol_ne data k key _ (fun hx => hkey.1 (by rw [hx]))]
    · intro key ys col' hmem hcol'
      rcases List.mem_cons.mp hmem with hhd | htl
      · injection hhd with h1 h2
        injection h2 with h2
        subst h1
        subst h2
        have hcc : col' = col := by
          rw [hcol] at hcol'
          injection hcol' with h3
          exact h3.symm
        subst hcc
        rw [ih3 key hndc.1,
          lookupCol_setCol_self data key _ hkmem]
      · have hkne : key ≠ k := by
          intro hx
          subst hx
          exact hndc.1 (List.mem_map.mpr ⟨(key, CVal.vlist ys), htl, rfl⟩)
        have hcol2 : lookupCol (setCol data k
            (col.take j ++ xs ++ col.drop (j + n))) key = some col' := by
          rw [lookupCol_setCol_ne data k key _ hkne]
          exact hcol'
        exact ih4 key ys col' htl hcol2

/-- `range(a, a + b)` over casts of naturals. -/
theorem intRange_nat_cast (a b : Nat) :
    intRange ((a : Nat) : Int) (((a : Nat) : Int) + ((b : Nat) : Int))
      = (List.range b).map (fun i => ((a + i : Nat) : Int)) := by
  unfold intRange
  have h1 : (((a : Nat) : Int) + ((b : Nat) : Int) - ((a : Nat) : Int)).toNat
      = b := by omega
  rw [h1]
  have hf : (fun i : Nat => ((a : Nat) : Int) + ((i : Nat) : Int))
      = (fun i : Nat => ((a + i : Nat) : Int)) := by
    funext i
    push_cast
    ring
  rw [hf]

/-- The successful bounded-mode path of `put`: indexes computed, written by
`update`, size clamped to capacity. -/
theorem put_bounded_success (s : SimpleStore) (c : Contents)
    (ow : Option (List Int)) (rand : Nat → Nat → List Nat) (R : List Int)
    (d2 : Data)
    (hcond : (decide (s.data.length > 0) &&
      !keySetEq (keysOf s.data) (keysOf c)) = false)
    (hval : validate c = none)
    (hcapne : (s.capacity == -1) = false)
    (hgui : s.getUpdateIndexes (contentsAddedSize c) ow rand = .ok R)
    (hupd : updateData R s.data c = (d2, none)) :
    s.put c ow rand =
      ({ s with
          data := d2
          size := min s.capacity.toNat (s.size + contentsAddedSize c) },
        .ok R) := by
  have hupdate : s.update R c = ({ s with data := d2 }, none) := by
    unfold SimpleStore.update
    simp only [hval, hupd]
  unfold SimpleStore.put
  rw [hcond]
  simp only [Bool.false_eq_true, if_false, hval, hcapne, hgui, hupdate]

/-- C4: bounded rolling store filled to exactly its capacity `C`: a `put`
of `k ≤ C` elements with no explicit overwrite indexes returns the write
indices `[0, k)`, overwrites exactly the first `k` slots of every column
(the earliest entries in write order), keeps the rest, and leaves the size
at `C`. -/
theorem put_rolling_at_capacity (s : SimpleStore) (c : Contents)
    (rand : Nat → Nat → List Nat) (C k : Nat)
    (hcap : s.capacity = (C : Int)) (hsize : s.size = C)
    (hov : s.overwrite_type = "rolling")
    (hkse : keySetEq (keysOf s.data) (keysOf c) = true)
    (hval : validate c = none) (hk : contentsAddedSize c = k) (hkC : k ≤ C)
    (hndd : (keysOf s.data).Nodup) (hndc : (keysOf c).Nodup)
    (hcols : ∀ kv ∈ s.data, kv.2.length = C) :
    (s.put c none rand).2
        = .ok ((List.range k).map (fun i => ((i : Nat) : Int))) ∧
    (s.put c none rand).1.size = C ∧
    (∀ key xs col, (key, CVal.vlist xs) ∈ c →
      lookupCol s.data key = some col →
      lookupCol (s.put c none rand).1.data key = some (xs ++ col.drop k)) := by
  have hcond : (decide (s.data.length > 0) &&
      !keySetEq (keysOf s.data) (keysOf c)) = false := by
    rw [hkse]
    simp
  have hcapne : (s.capacity == -1) = false := by
    rw [hcap]
    simp only [beq_eq_false_iff_ne]
    omega
  have hgui : s.getUpdateIndexes (contentsAddedSize c) none rand
      = .ok ((List.range k).map (fun i => ((0 + i : Nat) : Int))) := by
    unfold SimpleStore.getUpdateIndexes
    rw [hk]
    have h1 : ¬ ((k : Int) > s.capacity) := by
      rw [hcap]
      omega
    rw [if_neg h1]
    have h2 : ¬ ((s.size : Int) + (k : Int) - s.capacity < 0) := by
      rw [hsize, hcap]
      omega
    rw [if_neg h2]
    have h3 : (s.overwrite_type == "rolling") = true := by
      rw [hov]
      exact beq_self_eq_true _
    simp only [h3, if_true]
    rw [hsize, hcap]
    have h4 : ((C : Nat) : Int) - ((C : Nat) : Int) = ((0 : Nat) : Int) := by
      omega
    rw [h4, intRange_nat_cast 0 k]
  have hsub : ∀ kv ∈ c, kv.1 ∈ keysOf s.data := by
    intro kv hkv
    exact keySetEq_mem_right _ _ hkse kv.1 (List.mem_map.mpr ⟨kv, hkv, rfl⟩)
  have hvl : ∀ kv ∈ c, ∃ xs : List Cell, kv.2 = CVal.vlist xs ∧
      xs.length = k := by
    intro kv hkv
    obtain ⟨xs, h1, h2⟩ := (validate_none_facts c hval).2 kv hkv
    exact ⟨xs, h1, by rw [h2, hk]⟩
  have hlen : ∀ kv ∈ s.data, 0 + k ≤ kv.2.length := by
    intro kv hkv
    rw [hcols kv hkv]
    omega
  obtain ⟨u1, u2, u3, u4⟩ :=
    updateData_write_range k 0 c s.data hndd hndc hsub hvl hlen
  have hupd : updateData ((List.range k).map (fun i => ((0 + i : Nat) : Int))) s.data c
      = ((updateData ((List.range k).map (fun i => ((0 + i : Nat) : Int))) s.data c).1, none) := by
    rw [← u1]
  have hfinal := put_bounded_success s c none rand ((List.range k).map (fun i => ((0 + i : Nat) : Int)))
    (updateData ((List.range k).map (fun i => ((0 + i : Nat) : Int))) s.data c).1 hcond hval hcapne hgui hupd
  have hR0 : ((List.range k).map (fun i => ((0 + i : Nat) : Int))) = (List.range k).map (fun i => ((i : Nat) : Int)) := by
    congr 1
    funext i
    simp
  refine ⟨?_, ?_, ?_⟩
  · rw [hfinal, ← hR0]
  · rw [hfinal]
    simp only []
    rw [hcap, hsize, hk]
    omega
  · intro key xs col hmem hcol
    rw [hfinal]
    simp only []
    rw [u4 key xs col hmem hcol]
    simp

/-- Witness for C4: the spec's worked example — capacity 5, rolling,
keys S and A, store full at size 5; a put of 2 writes indices [0, 1],
overwrites the two earliest entries of each column, size stays 5. -/
theorem put_rolling_at_capacity_witness :
    (SimpleStore.put
        ⟨["S", "A"], 5, "rolling",
          [("S", [some 10, some 11, some 12, some 13, some 14]),
            ("A", [some 20, some 21, some 22, some 23, some 24])], 5⟩
        [("S", CVal.vlist [some 100, some 101]),
          ("A", CVal.vlist [some 200, some 201])] none (fun _ _ => [])).2
      = .ok [0, 1] ∧
    (SimpleStore.put
        ⟨["S", "A"], 5, "rolling",
          [("S", [some 10, some 11, some 12, some 13, some 14]),
            ("A", [some 20, some 21, some 22, some 23, some 24])], 5⟩
        [("S", CVal.vlist [some 100, some 101]),
          ("A", CVal.vlist [some 200, some 201])] none (fun _ _ => [])).1.size
      = 5 ∧
    lookupCol (SimpleStore.put
        ⟨["S", "A"], 5, "rolling",
          [("S", [some 10, some 11, some 12, some 13, some 14]),
            ("A", [some 20, some 21, some 22, some 23, some 24])], 5⟩
        [("S", CVal.vlist [some 100, some 101]),
          ("A", CVal.vlist [some 200, some 201])] none (fun _ _ => [])).1.data
        "S"
      = some [some 100, some 101, some 12, some 13, some 14] := by
  have h := put_rolling_at_capacity
    ⟨["S", "A"], 5, "rolling",
      [("S", [some 10, some 11, some 12, some 13, some 14]),
        ("A", [some 20, some 21, some 22, some 23, some 24])], 5⟩
    [("S", CVal.vlist [some 100, some 101]),
      ("A", CVal.vlist [some 200, some 201])] (fun _ _ => []) 5 2
    rfl rfl rfl (by decide) (by decide) rfl (by decide) (by decide)
    (by decide) (by decide)
  refine ⟨h.1.trans (by decide), h.2.1, ?_⟩
  have h3 := h.2.2 "S" [some 100, some 101]
    [some 10, some 11, some 12, some 13, some 14] (by decide) (by decide)
  exact h3.trans (by decide)

/-! Length- and key-preservation lemmas for the write loops. -/

theorem updateColumn_keys (k : String) :
    ∀ (idxs : List Int) (xs : List Cell) (data : Data),
      keysOf (updateColumn data k idxs xs).1 = keysOf data := by
  intro idxs
  induction idxs with
  | nil => intro xs data; cases xs <;> rfl
  | cons i is ih =>
    intro xs data
    cases xs with
    | nil => rfl
    | cons v vs =>
      rw [updateColumn]
      cases hl : lookupCol data k with
      | none => rfl
      | some col =>
        cases hs : pyListSet col i v with
        | none => simp [hs]
        | some col' =>
          simp only [hs]
          rw [ih vs (setCol data k col'), keysOf_setCol]

theorem updateColumn_lens (k : String) (L : Nat) :
    ∀ (idxs : List Int) (xs : List Cell) (data : Data),
      (∀ kv ∈ data, kv.2.length = L) →
      ∀ kv ∈ (updateColumn data k idxs xs).1, kv.2.length = L := by
  intro idxs
  induction idxs with
  | nil => intro xs data h; cases xs <;> exact h
  | cons i is ih =>
    intro xs data h
    cases xs with
    | nil => exact h
    | cons v vs =>
      rw [updateColumn]
      cases hl : lookupCol data k with
      | none => exact h
      | some col =>
        cases hs : pyListSet col i v with
        | none => simpa [hs] using h
        | some col' =>
          simp only [hs]
          apply ih vs (setCol data k col')
          intro kv hkv
          rcases mem_setCol data k col' kv hkv with hW | hm
          · rw [hW, pyListSet_length col col' i v hs]
            exact h (k, col) (lookupCol_mem data k col hl)
          · exact h kv hm

theorem updateData_lens (L : Nat) (idxs : List Int) :
    ∀ (c : Contents) (data : Data),
      (∀ kv ∈ data, kv.2.length = L) →
      ∀ kv ∈ (updateData idxs data c).1, kv.2.length = L := by
  intro c
  induction c with
  | nil => intro data h; exact h
  | cons kv0 rest ih =>
    intro data h
    obtain ⟨k, v⟩ := kv0
    cases v with
    | scalar => exact h
    | vlist xs =>
      rw [updateData]
      have h2 := updateColumn_lens k L idxs xs data h
      cases hu : updateColumn data k idxs xs with
      | mk d2 e =>
        rw [hu] at h2
        cases e with
        | none => exact ih d2 h2
        | some e2 => exact h2

/-- A member of a dict with distinct keys is found by lookup. -/
theorem lookup_of_mem_nodup (data : Data) (kv : String × List Cell)
    (hnd : (keysOf data).Nodup) (h : kv ∈ data) :
    lookupCol data kv.1 = some kv.2 := by
  induction data with
  | nil => simp at h
  | cons hd rest ih =>
    obtain ⟨k1, v1⟩ := hd
    rw [keysOf_cons, List.nodup_cons] at hnd
    rcases List.mem_cons.mp h with h | h
    · subst h
      rw [lookupCol_cons, if_pos rfl]
    · have hne : ¬ (k1 = kv.1) := by
        intro hx
        exact hnd.1 (hx ▸ List.mem_map.mpr ⟨kv, h, rfl⟩)
      rw [lookupCol_cons, if_neg hne]
      exact ih hnd.2 h

theorem exists_entry_of_mem_keysOf {α : Type} (l : List (String × α))
    (k : String) (h : k ∈ keysOf l) : ∃ v, (k, v) ∈ l := by
  obtain ⟨kv, hm, he⟩ := List.mem_map.mp h
  exact ⟨kv.2, by rw [← he]; exact hm⟩

/-- The extend loop of unbounded `put`, when every supplied column exists:
no error, keys kept, untouched columns kept, each supplied column extended
by its values. -/
theorem extendAll_extends :
    ∀ (c : Contents) (data : Data),
      (keysOf data).Nodup →
      (keysOf c).Nodup →
      (∀ kv ∈ c, kv.1 ∈ keysOf data) →
      (∀ kv ∈ c, ∃ xs : List Cell, kv.2 = CVal.vlist xs) →
      (extendAll data c).2 = none ∧
      keysOf (extendAll data c).1 = keysOf data ∧
      (∀ key, key ∉ keysOf c →
        lookupCol (extendAll data c).1 key = lookupCol data key) ∧
      (∀ key xs col, (key, CVal.vlist xs) ∈ c →
        lookupCol data key = some col →
        lookupCol (extendAll data c).1 key = some (col ++ xs)) := by
  intro c
  induction c with
  | nil =>
    intro data hndd hndc hsub hvl
    refine ⟨rfl, rfl, fun key _ => rfl, fun key xs col h _ => ?_⟩
    simp at h
  | cons kv rest ih =>
    intro data hndd hndc hsub hvl
    obtain ⟨k, v⟩ := kv
    obtain ⟨xs, hv⟩ := hvl (k, v) (List.mem_cons_self _ _)
    have hv' : v = CVal.vlist xs := hv
    subst hv'
    rw [keysOf_cons, List.nodup_cons] at hndc
    have hkmem : k ∈ keysOf data := hsub (k, CVal.vlist xs)
      (List.mem_cons_self _ _)
    obtain ⟨col, hcol⟩ := lookup_of_mem_keysOf data k hkmem
    rw [extendAll, hcol]
    have hndd2 : (keysOf (setCol data k (col ++ xs))).Nodup := by
      rw [keysOf_setCol]
      exact hndd
    have hsub2 : ∀ kv ∈ rest, kv.1 ∈ keysOf (setCol data k (col ++ xs)) := by
      intro kv2 hkv2
      rw [keysOf_setCol]
      exact hsub kv2 (List.mem_cons_of_mem _ hkv2)
    have hvl2 : ∀ kv ∈ rest, ∃ ys : List Cell, kv.2 = CVal.vlist ys :=
      fun kv2 hkv2 => hvl kv2 (List.mem_cons_of_mem _ hkv2)
    obtain ⟨ih1, ih2, ih3, ih4⟩ := ih (setCol data k (col ++ xs))
      hndd2 hndc.2 hsub2 hvl2
    refine ⟨ih1, by rw [ih2, keysOf_setCol], ?_, ?_⟩
    · intro key hkey
      rw [keysOf_cons, List.mem_cons, not_or] at hkey
      rw [ih3 key hkey.2,
        lookupCol_setCol_ne data k key _ (fun hx => hkey.1 (by rw [hx]))]
    · intro key ys col' hmem hcol'
      rcases List.mem_cons.mp hmem with hhd | htl
      · injection hhd with h1 h2
        injection h2 with h2
        subst h1
        subst h2
        have hcc : col' = col := by
          rw [hcol] at hcol'
          injection hcol' with h3
          exact h3.symm
        subst hcc
        rw [ih3 key hndc.1, lookupCol_setCol_self data key _ hkmem]
      · have hkne : key ≠ k := by
          intro hx
          subst hx
          exact hndc.1 (List.mem_map.mpr ⟨(key, CVal.vlist ys), htl, rfl⟩)
        have hcol2 : lookupCol (setCol data k (col ++ xs)) key = some col' := by
          rw [lookupCol_setCol_ne data k key _ hkne]
          exact hcol'
        exact ih4 key ys col' htl hcol2

/-- The successful unbounded-mode path of `put`: columns extended, size
increased, the fresh contiguous index range returned. -/
theorem put_unbounded_success (s : SimpleStore) (c : Contents)
    (ow : Option (List Int)) (rand : Nat → Nat → List Nat) (d2 : Data)
    (hcond : (decide (s.data.length > 0) &&
      !keySetEq (keysOf s.data) (keysOf c)) = false)
    (hval : validate c = none)
    (hcap : (s.capacity == -1) = true)
    (hext : extendAll s.data c = (d2, none)) :
    s.put c ow rand =
      ({ s with
          data := d2
          size := s.size + contentsAddedSize c },
        .ok ((List.range (contentsAddedSize c)).map
          (fun i => ((s.size + i : Nat) : Int)))) := by
  unfold SimpleStore.put
  rw [hcond]
  simp only [Bool.false_eq_true, if_false, hval, hcap, if_true, hext]

theorem extendAll_nil_data (c : Contents) : (extendAll [] c).1 = [] := by
  cases c with
  | nil => rfl
  | cons kv rest =>
    obtain ⟨k, v⟩ := kv
    cases v <;> rfl

theorem lenInv_initData (keys : List String) (capacity : Int) :
    ∀ kv ∈ initData keys capacity,
      kv.2.length = if capacity = -1 then 0 else capacity.toNat := by
  intro kv hkv
  obtain ⟨k0, hk0, he⟩ := List.mem_map.mp hkv
  rw [← he]
  by_cases hc : (capacity == -1) = true
  · have hc2 : capacity = -1 := by simpa using hc
    simp [hc, hc2]
  · have hc1 : (capacity == -1) = false := by
      cases hb : (capacity == -1)
      · rfl
      · exact absurd hb hc
    have hc2 : ¬ (capacity = -1) := by simpa using hc1
    simp [hc1, hc2]

/-- C6: the cross-column length invariant — every column has physical
length `size` (unbounded) or `capacity` (bounded) — holds after
construction and is preserved by `update` (even failing), `clear`, and
`put` (even failing), the latter under the dict-key distinctness that
Python's dicts guarantee. -/
theorem store_length_invariant :
    (∀ (keys : List String) (capacity : Int) (ow : Option String)
        (s : SimpleStore), initStore keys capacity ow = .ok s → lenInv s) ∧
    (∀ (s : SimpleStore) (idxs : List Int) (c : Contents),
        lenInv s → lenInv (s.update idxs c).1) ∧
    (∀ s : SimpleStore, lenInv s.clear) ∧
    (∀ (s : SimpleStore) (c : Contents) (ow : Option (List Int))
        (rand : Nat → Nat → List Nat),
        lenInv s → (keysOf s.data).Nodup → (keysOf c).Nodup →
        lenInv (s.put c ow rand).1) := by
  have hinit : ∀ (keys : List String) (capacity : Int) (ow : Option String)
      (s : SimpleStore), initStore keys capacity ow = .ok s → lenInv s := by
    intro keys capacity ow s h
    unfold initStore at h
    split at h
    · simp at h
    · injection h with h
      subst h
      intro kv hkv
      exact lenInv_initData keys capacity kv hkv
  have hupdate : ∀ (s : SimpleStore) (idxs : List Int) (c : Contents),
      lenInv s → lenInv (s.update idxs c).1 := by
    intro s idxs c hinv
    unfold SimpleStore.update
    cases hv : validate c with
    | some e => exact hinv
    | none =>
      simp only []
      intro kv hkv
      exact updateData_lens _ idxs c s.data hinv kv hkv
  have hclear : ∀ s : SimpleStore, lenInv s.clear := by
    intro s kv hkv
    exact lenInv_initData s.keys s.capacity kv hkv
  refine ⟨hinit, hupdate, hclear, ?_⟩
  intro s c ow rand hinv hndd hndc
  by_cases hcond : (decide (s.data.length > 0) &&
      !keySetEq (keysOf s.data) (keysOf c)) = true
  · have hput : s.put c ow rand = (s, .error .schemaMismatch) := by
      unfold SimpleStore.put
      rw [hcond]
      simp
    rw [hput]
    exact hinv
  · have hcond' : (decide (s.data.length > 0) &&
        !keySetEq (keysOf s.data) (keysOf c)) = false := by
      cases hb : (decide (s.data.length > 0) &&
        !keySetEq (keysOf s.data) (keysOf c))
      · rfl
      · exact absurd hb hcond
    cases hv : validate c with
    | some e =>
      have hput : s.put c ow rand = (s, .error e) := by
        unfold SimpleStore.put
        rw [hcond']
        simp only [Bool.false_eq_true, if_false, hv]
      rw [hput]
      exact hinv
    | none =>
      by_cases hcap : (s.capacity == -1) = true
      · have hcapeq : s.capacity = -1 := by simpa using hcap
        have hdisj : s.data.length = 0 ∨
            keySetEq (keysOf s.data) (keysOf c) = true := by
          by_cases h0 : s.data.length = 0
          · exact Or.inl h0
          · right
            cases hkse : keySetEq (keysOf s.data) (keysOf c)
            · exfalso
              rw [hkse] at hcond'
              simp only [Bool.not_false, Bool.and_true,
                decide_eq_false_iff_not] at hcond'
              omega
            · rfl
        rcases hdisj with h0 | hkse
        · have hde : s.data = [] := List.length_eq_zero.mp h0
          have hdata : (s.put c ow rand).1.data = [] := by
            unfold SimpleStore.put
            rw [hcond']
            simp only [Bool.false_eq_true, if_false, hv, hcap, if_true]
            cases hext : extendAll s.data c with
            | mk d2 e2 =>
              rw [hde] at hext
              have h5 := extendAll_nil_data c
              rw [hext] at h5
              simp only [] at h5
              cases e2 <;> simp [h5]
          intro kv hkv
          rw [hdata] at hkv
          simp at hkv
        · have hsub : ∀ kv ∈ c, kv.1 ∈ keysOf s.data := by
            intro kv hkv
            exact keySetEq_mem_right _ _ hkse kv.1
              (List.mem_map.mpr ⟨kv, hkv, rfl⟩)
          have hvl : ∀ kv ∈ c, ∃ xs : List Cell, kv.2 = CVal.vlist xs := by
            intro kv hkv
            obtain ⟨xs, h1, _⟩ := (validate_none_facts c hv).2 kv hkv
            exact ⟨xs, h1⟩
          obtain ⟨e1, e2, e3, e4⟩ := extendAll_extends c s.data hndd hndc hsub hvl
          have hext : extendAll s.data c = ((extendAll s.data c).1, none) := by
            rw [← e1]
          have hput := put_unbounded_success s c ow rand
            (extendAll s.data c).1 hcond' hv hcap hext
          rw [hput]
          intro kv hkv
          simp only [] at hkv ⊢
          have hnd2 : (keysOf (extendAll s.data c).1).Nodup := by
            rw [e2]
            exact hndd
          have hlk := lookup_of_mem_nodup _ kv hnd2 hkv
          have hkmem : kv.1 ∈ keysOf s.data := by
            rw [← e2]
            exact List.mem_map.mpr ⟨kv, hkv, rfl⟩
          have hkc : kv.1 ∈ keysOf c := keySetEq_mem_left _ _ hkse kv.1 hkmem
          obtain ⟨v0, hv0⟩ := exists_entry_of_mem_keysOf c kv.1 hkc
          obtain ⟨xs, hxs1, hxs2⟩ := (validate_none_facts c hv).2 (kv.1, v0) hv0
          simp only [] at hxs1
          subst hxs1
          obtain ⟨col, hcol⟩ := lookup_of_mem_keysOf s.data kv.1 hkmem
          have hlk2 := e4 kv.1 xs col hv0 hcol
          rw [hlk] at hlk2
          injection hlk2 with hlk2
          have hcollen : col.length = s.size := by
            have := hinv (kv.1, col) (lookupCol_mem s.data kv.1 col hcol)
            simpa [hcapeq] using this
          rw [hcapeq, hlk2]
          simp [hcollen, hxs2]
      · have hcapne : (s.capacity == -1) = false := by
          cases hb : (s.capacity == -1)
          · rfl
          · exact absurd hb hcap
        have hcapne2 : ¬ (s.capacity = -1) := by simpa using hcapne
        unfold SimpleStore.put
        rw [hcond']
        simp only [Bool.false_eq_true, if_false, hv, hcapne]
        cases hg : s.getUpdateIndexes (contentsAddedSize c) ow rand with
        | error e => exact hinv
        | ok widx =>
          simp only []
          have hup : s.update widx c
              = ({ s with data := (updateData widx s.data c).1 },
                  (updateData widx s.data c).2) := by
            unfold SimpleStore.update
            rw [hv]
          rw [hup]
          have hlens : ∀ kv ∈ (updateData widx s.data c).1,
              kv.2.length = s.capacity.toNat := by
            apply updateData_lens
            intro kv hkv
            have := hinv kv hkv
            simpa [hcapne2] using this
          cases he2 : (updateData widx s.data c).2 with
          | some e =>
            intro kv hkv
            simp only [] at hkv ⊢
            rw [if_neg hcapne2]
            exact hlens kv hkv
          | none =>
            intro kv hkv
            simp only [] at hkv ⊢
            rw [if_neg hcapne2]
            exact hlens kv hkv

/-- Witness for C6 at a bounded and an unbounded store. -/
theorem store_length_invariant_witness :
    lenInv (⟨["a"], 2, "rolling", [("a", [none, none])], 0⟩ : SimpleStore) ∧
    lenInv ((⟨["a"], -1, "rolling", [("a", [some 1])], 1⟩ : SimpleStore).update
      [0] [("a", CVal.vlist [some 2])]).1 ∧
    lenInv (⟨["a"], -1, "rolling", [("a", [some 1])], 1⟩ : SimpleStore).clear ∧
    lenInv ((⟨["a"], -1, "rolling", [("a", [some 1])], 1⟩ : SimpleStore).put
      [("a", CVal.vlist [some 2])] none (fun _ _ => [])).1 :=
  ⟨store_length_invariant.1 ["a"] 2 (some "rolling")
      ⟨["a"], 2, "rolling", [("a", [none, none])], 0⟩ (by decide),
    store_length_invariant.2.1 ⟨["a"], -1, "rolling", [("a", [some 1])], 1⟩
      [0] [("a", CVal.vlist [some 2])] (by decide),
    store_length_invariant.2.2.1 ⟨["a"], -1, "rolling", [("a", [some 1])], 1⟩,
    store_length_invariant.2.2.2 ⟨["a"], -1, "rolling", [("a", [some 1])], 1⟩
      [("a", CVal.vlist [some 2])] none (fun _ _ => [])
      (by decide) (by decide) (by decide)⟩

/-! Projection lemmas for `get`. -/

theorem pyListGet_nat (l : List Cell) (j : Nat) (h : j < l.length) :
    pyListGet l ((j : Nat) : Int) = some (l.get ⟨j, h⟩) := by
  unfold pyListGet
  have h0 : ¬ ((j : Int) < 0) := by omega
  have h1 : (0 : Int) ≤ (j : Int) := by omega
  have h2 : ((j : Int)) < (l.length : Int) := by exact_mod_cast h
  simp [h0, h1, h2, List.get?_eq_get h]

/-- Projecting a consecutive index window out of one column. -/
theorem selectIdxs_range (m : Nat) :
    ∀ (l : List Cell) (j : Nat), j + m ≤ l.length →
      selectIdxs l ((List.range m).map (fun i => ((j + i : Nat) : Int)))
        = .ok ((l.drop j).take m) := by
  induction m with
  | zero => intro l j h; simp [selectIdxs]
  | succ m ih =>
    intro l j h
    have hidx : (List.range (m + 1)).map (fun i => ((j + i : Nat) : Int))
        = ((j : Nat) : Int) ::
            (List.range m).map (fun i => (((j + 1) + i : Nat) : Int)) := by
      rw [List.range_succ_eq_map, List.map_cons, List.map_map]
      congr 1
      have hf : ((fun i => ((j + i : Nat) : Int)) ∘ Nat.succ)
          = (fun i : Nat => (((j + 1) + i : Nat) : Int)) := by
        funext i
        simp only [Function.comp_apply]
        congr 1
        omega
      rw [hf]
    rw [hidx, selectIdxs]
    have hj : j < l.length := by omega
    rw [pyListGet_nat l j hj]
    simp only []
    rw [ih l (j + 1) (by omega)]
    have hdrop : l.drop j = l.get ⟨j, hj⟩ :: l.drop (j + 1) := by
      rw [List.drop_eq_getElem_cons hj]
      simp
    rw [hdrop]
    rfl

/-- `getData` succeeds when every column projection does, and projects
column-wise. -/
theorem getData_ok :
    ∀ (data : Data) (idxs : List Int),
      (∀ kv ∈ data, ∃ ys : List Cell, selectIdxs kv.2 idxs = .ok ys) →
      ∃ res : Data, getData data idxs = .ok res ∧
        keysOf res = keysOf data ∧
        ∀ key col ys, lookupCol data key = some col →
          selectIdxs col idxs = .ok ys → lookupCol res key = some ys := by
  intro data
  induction data with
  | nil =>
    intro idxs h
    exact ⟨[], rfl, rfl, fun key col ys h1 _ => by simp [lookupCol] at h1⟩
  | cons kv rest ih =>
    intro idxs h
    obtain ⟨k, col0⟩ := kv
    obtain ⟨ys0, hys0⟩ := h (k, col0) (List.mem_cons_self _ _)
    obtain ⟨res, hres, hkeys, hlook⟩ :=
      ih idxs (fun kv2 h2 => h kv2 (List.mem_cons_of_mem _ h2))
    refine ⟨(k, ys0) :: res, ?_, ?_, ?_⟩
    · rw [getData]
      simp only [hys0, hres]
      rfl
    · rw [keysOf_cons, keysOf_cons, hkeys]
    · intro key col ys h1 h2
      rw [lookupCol_cons] at h1
      rw [lookupCol_cons]
      by_cases hk : k = key
      · rw [if_pos hk] at h1 ⊢
        injection h1 with h1
        subst h1
        rw [hys0] at h2
        injection h2 with h2
        rw [h2]
      · rw [if_neg hk] at h1 ⊢
        exact hlook key col ys h1 h2

/-- A successful unbounded `put` adds `added_size` to `size` and keeps the
store unbounded. -/
theorem put_unbounded_size_cap (s : SimpleStore) (c : Contents)
    (ow : Option (List Int)) (rand : Nat → Nat → List Nat) (R : List Int)
    (hcap : s.capacity = -1) (hok : (s.put c ow rand).2 = .ok R) :
    (s.put c ow rand).1.size = s.size + contentsAddedSize c ∧
    (s.put c ow rand).1.capacity = -1 := by
  unfold SimpleStore.put at hok ⊢
  by_cases hcond : (decide (s.data.length > 0) &&
      !keySetEq (keysOf s.data) (keysOf c)) = true
  · rw [hcond] at hok
    simp at hok
  · have hcond' : (decide (s.data.length > 0) &&
        !keySetEq (keysOf s.data) (keysOf c)) = false := by
      cases hb : (decide (s.data.length > 0) &&
        !keySetEq (keysOf s.data) (keysOf c))
      · rfl
      · exact absurd hb hcond
    rw [hcond'] at hok ⊢
    simp only [Bool.false_eq_true, if_false] at hok ⊢
    cases hv : validate c with
    | some e =>
      rw [hv] at hok
      simp at hok
    | none =>
      simp only [hv] at hok ⊢
      have hcapb : (s.capacity == -1) = true := by simp [hcap]
      simp only [hcapb, if_true] at hok ⊢
      cases hext : extendAll s.data c with
      | mk d2 e2 =>
        simp only [hext] at hok ⊢
        cases e2 with
        | some e => simp at hok
        | none => exact ⟨rfl, hcap⟩

/-- `len(store)` after a run of successful unbounded puts is the sum of the
batch sizes. -/
theorem putAll_size (rand : Nat → Nat → List Nat) :
    ∀ (bs : List Contents) (s s' : SimpleStore),
      s.capacity = -1 → putAll rand s bs = some s' →
      s'.size = s.size + (bs.map contentsAddedSize).sum := by
  intro bs
  induction bs with
  | nil =>
    intro s s' hcap h
    rw [putAll] at h
    injection h with h
    subst h
    simp
  | cons c rest ih =>
    intro s s' hcap h
    rw [putAll] at h
    cases hp : s.put c none rand with
    | mk s2 r =>
      rw [hp] at h
      cases r with
      | error e => simp at h
      | ok R =>
        simp only [] at h
        have hok : (s.put c none rand).2 = .ok R := by rw [hp]
        obtain ⟨hsz, hcap2⟩ := put_unbounded_size_cap s c none rand R hcap hok
        rw [hp] at hsz hcap2
        simp only [] at hsz hcap2
        have h2 := ih s2 s' hcap2 h
        rw [h2, hsz, List.map_cons, List.sum_cons]
        ring

/-- C5: unbounded store — a valid `put` returns the contiguous fresh index
range `[oldSize, oldSize + k)`, appends each column's values, increases
`size` by `k`, `get` at the returned indices round-trips exactly the values
passed, and over any run of successful puts `len(store)` is the sum of the
batch sizes. -/
theorem put_unbounded_roundtrip (s : SimpleStore) (c : Contents)
    (rand : Nat → Nat → List Nat) (k : Nat)
    (hcap : s.capacity = -1)
    (hkse : keySetEq (keysOf s.data) (keysOf c) = true)
    (hval : validate c = none)
    (hk : contentsAddedSize c = k)
    (hndd : (keysOf s.data).Nodup) (hndc : (keysOf c).Nodup)
    (hcols : ∀ kv ∈ s.data, kv.2.length = s.size) :
    (s.put c none rand).2
        = .ok ((List.range k).map (fun i => ((s.size + i : Nat) : Int))) ∧
    (s.put c none rand).1.size = s.size + k ∧
    (∀ key xs col, (key, CVal.vlist xs) ∈ c →
      lookupCol s.data key = some col →
      lookupCol (s.put c none rand).1.data key = some (col ++ xs)) ∧
    (∃ res : Data, (s.put c none rand).1.get
          (some ((List.range k).map (fun i => ((s.size + i : Nat) : Int))))
        = .ok res ∧
      ∀ key xs, (key, CVal.vlist xs) ∈ c → lookupCol res key = some xs) ∧
    (∀ (bs : List Contents) (s' : SimpleStore), putAll rand s bs = some s' →
      s'.size = s.size + (bs.map contentsAddedSize).sum) := by
  have hcond : (decide (s.data.length > 0) &&
      !keySetEq (keysOf s.data) (keysOf c)) = false := by
    rw [hkse]
    simp
  have hcapb : (s.capacity == -1) = true := by simp [hcap]
  have hsub : ∀ kv ∈ c, kv.1 ∈ keysOf s.data := by
    intro kv hkv
    exact keySetEq_mem_right _ _ hkse kv.1 (List.mem_map.mpr ⟨kv, hkv, rfl⟩)
  have hvl : ∀ kv ∈ c, ∃ xs : List Cell, kv.2 = CVal.vlist xs := by
    intro kv hkv
    obtain ⟨xs, h1, _⟩ := (validate_none_facts c hval).2 kv hkv
    exact ⟨xs, h1⟩
  obtain ⟨e1, e2, e3, e4⟩ := extendAll_extends c s.data hndd hndc hsub hvl
  have hext : extendAll s.data c = ((extendAll s.data c).1, none) := by
    rw [← e1]
  have hput := put_unbounded_success s c none rand
    (extendAll s.data c).1 hcond hval hcapb hext
  have hcollen : ∀ key xs col, (key, CVal.vlist xs) ∈ c →
      lookupCol s.data key = some col → col.length = s.size ∧ xs.length = k := by
    intro key xs col hmem hcol
    constructor
    · exact hcols (key, col) (lookupCol_mem s.data key col hcol)
    · obtain ⟨ys, h1, h2⟩ := (validate_none_facts c hval).2 (key, CVal.vlist xs) hmem
      simp only [CVal.vlist.injEq] at h1
      rw [h1, h2, hk]
  have hd2cols : ∀ kv ∈ (extendAll s.data c).1, kv.2.length = s.size + k := by
    intro kv hkv
    have hnd2 : (keysOf (extendAll s.data c).1).Nodup := by
      rw [e2]
      exact hndd
    have hlk := lookup_of_mem_nodup _ kv hnd2 hkv
    have hkmem : kv.1 ∈ keysOf s.data := by
      rw [← e2]
      exact List.mem_map.mpr ⟨kv, hkv, rfl⟩
    have hkc : kv.1 ∈ keysOf c := keySetEq_mem_left _ _ hkse kv.1 hkmem
    obtain ⟨v0, hv0⟩ := exists_entry_of_mem_keysOf c kv.1 hkc
    obtain ⟨xs, hxs1, _⟩ := (validate_none_facts c hval).2 (kv.1, v0) hv0
    simp only [] at hxs1
    subst hxs1
    obtain ⟨col, hcol⟩ := lookup_of_mem_keysOf s.data kv.1 hkmem
    obtain ⟨hc1, hc2⟩ := hcollen kv.1 xs col hv0 hcol
    have hlk2 := e4 kv.1 xs col hv0 hcol
    rw [hlk] at hlk2
    injection hlk2 with hlk2
    rw [hlk2, List.length_append, hc1, hc2]
  refine ⟨?_, ?_, ?_, ?_, ?_⟩
  · rw [hput]
    simp only [hk]
  · rw [hput]
    simp only [hk]
  · intro key xs col hmem hcol
    rw [hput]
    exact e4 key xs col hmem hcol
  · have hproj : ∀ kv ∈ (extendAll s.data c).1, ∃ ys : List Cell,
        selectIdxs kv.2 ((List.range k).map
          (fun i => ((s.size + i : Nat) : Int))) = .ok ys := by
      intro kv hkv
      exact ⟨(kv.2.drop s.size).take k,
        selectIdxs_range k kv.2 s.size (by rw [hd2cols kv hkv])⟩
    obtain ⟨res, hres, hrkeys, hrlook⟩ :=
      getData_ok (extendAll s.data c).1
        ((List.range k).map (fun i => ((s.size + i : Nat) : Int))) hproj
    refine ⟨res, ?_, ?_⟩
    · rw [hput]
      unfold SimpleStore.get
      simp only []
      exact hres
    · intro key xs hmem
      have hkmem : key ∈ keysOf s.data := hsub (key, CVal.vlist xs) hmem
      obtain ⟨col, hcol⟩ := lookup_of_mem_keysOf s.data key hkmem
      obtain ⟨hc1, hc2⟩ := hcollen key xs col hmem hcol
      have hlk2 := e4 key xs col hmem hcol
      have hsel : selectIdxs (col ++ xs) ((List.range k).map
          (fun i => ((s.size + i : Nat) : Int))) = .ok xs := by
        have h5 := selectIdxs_range k (col ++ xs) s.size
          (by rw [List.length_append, hc1, hc2])
        rw [h5]
        congr 1
        rw [← hc1, List.drop_left, ← hc2, List.take_length]
      exact hrlook key (col ++ xs) xs hlk2 hsel
  · intro bs s' h
    exact putAll_size rand bs s s' hcap h

/-- Witness for C5: one put of two values into a one-element unbounded
store, plus a two-put run summing sizes. -/
theorem put_unbounded_roundtrip_witness :
    (SimpleStore.put ⟨["a"], -1, "rolling", [("a", [some 1])], 1⟩
        [("a", CVal.vlist [some 2, some 3])] none (fun _ _ => [])).2
      = .ok [1, 2] ∧
    (SimpleStore.put ⟨["a"], -1, "rolling", [("a", [some 1])], 1⟩
        [("a", CVal.vlist [some 2, some 3])] none (fun _ _ => [])).1.size
      = 3 ∧
    lookupCol (SimpleStore.put ⟨["a"], -1, "rolling", [("a", [some 1])], 1⟩
        [("a", CVal.vlist [some 2, some 3])] none (fun _ _ => [])).1.data "a"
      = some [some 1, some 2, some 3] ∧
    (SimpleStore.get (SimpleStore.put
        ⟨["a"], -1, "rolling", [("a", [some 1])], 1⟩
        [("a", CVal.vlist [some 2, some 3])] none (fun _ _ => [])).1
        (some [1, 2]))
      = .ok [("a", [some 2, some 3])] ∧
    (∀ s' : SimpleStore,
      putAll (fun _ _ => []) ⟨["a"], -1, "rolling", [("a", [some 1])], 1⟩
          [[("a", CVal.vlist [some 2, some 3])],
            [("a", CVal.vlist [some 4])]] = some s' →
      s'.size = 4) := by
  have h := put_unbounded_roundtrip
    ⟨["a"], -1, "rolling", [("a", [some 1])], 1⟩
    [("a", CVal.vlist [some 2, some 3])] (fun _ _ => []) 2
    rfl (by decide) (by decide) rfl (by decide) (by decide) (by decide)
  refine ⟨h.1.trans (by decide), h.2.1, ?_, by decide, ?_⟩
  · have h3 := h.2.2.1 "a" [some 2, some 3] [some 1] (by decide) (by decide)
    exact h3.trans (by decide)
  · intro s' hps
    have h5 := h.2.2.2.2
      [[("a", CVal.vlist [some 2, some 3])], [("a", CVal.vlist [some 4])]]
      s' hps
    rw [h5]
    decide

/-! Truncation and success lemmas for `update` (claim C10). -/

theorem pyListSet_ok (l : List Cell) (i : Int) (v : Cell)
    (h : pyIdxOK i l.length) :
    pyListSet l i v = some (l.set (pyNorm i l.length).toNat v) := by
  unfold pyListSet
  split
  · rfl
  · rename_i hc
    exact absurd h hc

/-- The `zip(indexes, val)` loop consumes only `min` of the two lists: the
call equals the call on both lists truncated there. -/
theorem updateColumn_truncate (k : String) :
    ∀ (idxs : List Int) (xs : List Cell) (data : Data),
      updateColumn data k idxs xs
        = updateColumn data k (idxs.take (min idxs.length xs.length))
            (xs.take (min idxs.length xs.length)) := by
  intro idxs
  induction idxs with
  | nil =>
    intro xs data
    simp [updateColumn]
  | cons i is ih =>
    intro xs data
    cases xs with
    | nil => simp [updateColumn]
    | cons v vs =>
      have hm : min (i :: is).length (v :: vs).length
          = min is.length vs.length + 1 := by
        simp only [List.length_cons]
        omega
      rw [hm, List.take_succ_cons, List.take_succ_cons,
        updateColumn, updateColumn]
      cases hl : lookupCol data k with
      | none => rfl
      | some col =>
        simp only []
        cases hs : pyListSet col i v with
        | none => simp [hs]
        | some col' =>
          simp only [hs]
          exact ih vs (setCol data k col')

/-- The column write succeeds when the key exists and the consumed indexes
are in range (surplus indexes are never touched). -/
theorem updateColumn_ok (k : String) (L : Nat) :
    ∀ (idxs : List Int) (xs : List Cell) (data : Data),
      (∀ kv ∈ data, kv.2.length = L) →
      (xs ≠ [] → idxs ≠ [] → k ∈ keysOf data) →
      (∀ i ∈ idxs.take xs.length, pyIdxOK i L) →
      (updateColumn data k idxs xs).2 = none := by
  intro idxs
  induction idxs with
  | nil => intro xs data _ _ _; cases xs <;> rfl
  | cons i is ih =>
    intro xs data hlens hkey hrange
    cases xs with
    | nil => rfl
    | cons v vs =>
      rw [updateColumn]
      have hk : k ∈ keysOf data := hkey (by simp) (by simp)
      obtain ⟨col, hcol⟩ := lookup_of_mem_keysOf data k hk
      rw [hcol]
      simp only []
      have hcl : col.length = L :=
        hlens (k, col) (lookupCol_mem data k col hcol)
      have hio : pyIdxOK i col.length := by
        rw [hcl]
        apply hrange
        rw [List.length_cons, List.take_succ_cons]
        exact List.mem_cons_self _ _
      rw [pyListSet_ok col i v hio]
      simp only []
      apply ih vs (setCol data k (col.set (pyNorm i col.length).toNat v))
      · intro kv hkv
        rcases mem_setCol _ _ _ kv hkv with hW | hm
        · rw [hW, List.length_set]
          exact hcl
        · exact hlens kv hm
      · intro _ _
        rw [keysOf_setCol]
        exact hk
      · intro i2 hi2
        apply hrange
        rw [List.length_cons, List.take_succ_cons]
        exact List.mem_cons_of_mem _ hi2

/-- The whole `update` write loop truncates at the same `min` for every
column. -/
theorem updateData_truncate (idxs : List Int) (m : Nat) :
    ∀ (c : Contents) (data : Data),
      (∀ kv ∈ c, ∀ xs : List Cell, kv.2 = CVal.vlist xs →
        min idxs.length xs.length = m) →
      updateData idxs data c
        = updateData (idxs.take m) data (mapVals (List.take m) c) := by
  intro c
  induction c with
  | nil => intro data _; rfl
  | cons kv rest ih =>
    intro data hmin
    obtain ⟨k, v⟩ := kv
    cases v with
    | scalar => rfl
    | vlist xs =>
      have hm := hmin (k, CVal.vlist xs) (List.mem_cons_self _ _) xs rfl
      show updateData idxs data ((k, CVal.vlist xs) :: rest)
          = updateData (idxs.take m) data
            ((k, CVal.vlist (xs.take m)) :: mapVals (List.take m) rest)
      rw [updateData, updateData]
      have hcol : updateColumn data k idxs xs
          = updateColumn data k (idxs.take m) (xs.take m) := by
        rw [updateColumn_truncate k idxs xs data, hm]
      rw [hcol]
      cases hu : updateColumn data k (idxs.take m) (xs.take m) with
      | mk d2 e =>
        cases e with
        | none =>
          exact ih d2
            (fun kv2 h2 xs2 hx2 => hmin kv2 (List.mem_cons_of_mem _ h2) xs2 hx2)
        | some e2 => rfl

/-- `update`'s write loop succeeds when the supplied keys exist and the
consumed indexes are in range. -/
theorem updateData_ok (L : Nat) (idxs : List Int) :
    ∀ (c : Contents) (data : Data),
      (∀ kv ∈ data, kv.2.length = L) →
      (∀ kv ∈ c, kv.1 ∈ keysOf data) →
      (∀ kv ∈ c, ∃ xs : List Cell, kv.2 = CVal.vlist xs ∧
        ∀ i ∈ idxs.take xs.length, pyIdxOK i L) →
      (updateData idxs data c).2 = none := by
  intro c
  induction c with
  | nil => intro data _ _ _; rfl
  | cons kv rest ih =>
    intro data hlens hsub hvl
    obtain ⟨k, v⟩ := kv
    obtain ⟨xs, hv, hrange⟩ := hvl (k, v) (List.mem_cons_self _ _)
    have hv' : v = CVal.vlist xs := hv
    subst hv'
    rw [updateData]
    have hok := updateColumn_ok k L idxs xs data hlens
      (fun _ _ => hsub (k, CVal.vlist xs) (List.mem_cons_self _ _)) hrange
    cases hu : updateColumn data k idxs xs with
    | mk d2 e =>
      rw [hu] at hok
      simp only [] at hok
      subst hok
      apply ih d2
      · intro kv2 h2
        have h3 := updateColumn_lens k L idxs xs data hlens kv2
        rw [hu] at h3
        exact h3 h2
      · intro kv2 h2
        have h3 := hsub kv2 (List.mem_cons_of_mem _ h2)
        have h4 := updateColumn_keys k idxs xs data
        rw [hu] at h4
        rw [h4]
        exact h3
      · exact fun kv2 h2 => hvl kv2 (List.mem_cons_of_mem _ h2)

/-- Truncating every column of passing contents still passes `validate`. -/
theorem validate_mapVals_take (c : Contents) (m : Nat)
    (hval : validate c = none) :
    validate (mapVals (List.take m) c) = none := by
  obtain ⟨hnil, hfacts⟩ := validate_none_facts c hval
  unfold validate
  have hscal : ((mapVals (List.take m) c).any (fun kv =>
      match kv.2 with
      | CVal.vlist _ => false
      | CVal.scalar => true)) = false := by
    rw [List.any_eq_false]
    intro kv hkv
    obtain ⟨kv0, h0, he⟩ := List.mem_map.mp hkv
    obtain ⟨xs, hx, _⟩ := hfacts kv0 h0
    rw [← he]
    simp only [hx]
    simp
  rw [hscal]
  simp only [Bool.false_eq_true, if_false]
  cases hc : mapVals (List.take m) c with
  | nil =>
    exfalso
    apply hnil
    unfold mapVals at hc
    exact List.map_eq_nil_iff.mp hc
  | cons hd tl =>
    obtain ⟨k0, v0⟩ := hd
    have hmem : (k0, v0) ∈ mapVals (List.take m) c := by
      rw [hc]
      exact List.mem_cons_self _ _
    obtain ⟨kv0, h0, he⟩ := List.mem_map.mp hmem
    obtain ⟨xs, hx, hlen⟩ := hfacts kv0 h0
    have hv0 : v0 = CVal.vlist (xs.take m) := by
      have he2 := congrArg Prod.snd he
      simp only [hx] at he2
      exact he2.symm
    rw [hv0] at hc
    rw [hv0]
    simp only []
    have hany : (((k0, CVal.vlist (xs.take m)) :: tl).any (fun kv =>
        match kv.2 with
        | CVal.vlist zs => zs.length != (xs.take m).length
        | CVal.scalar => true)) = false := by
      rw [List.any_eq_false]
      intro kv2 hkv2
      have hkv2' : kv2 ∈ mapVals (List.take m) c := by
        rw [hc]
        exact hkv2
      obtain ⟨kv3, h3, he3⟩ := List.mem_map.mp hkv2'
      obtain ⟨ys, hy, hleny⟩ := hfacts kv3 h3
      rw [← he3]
      simp only [hy]
      simp [List.length_take, hleny, hlen]
    rw [hany]
    simp

/-- C10: an `update` call that passes validation writes each column at
exactly `min(len(indexes), len(values))` positions, pairing indexes with
values from the front: the call equals the call on the truncated arguments,
surplus indexes or values are silently ignored (surplus indexes are not
even bounds-checked), and no error is raised. -/
theorem update_surplus_ignored (s : SimpleStore) (idxs : List Int)
    (c : Contents) (L k : Nat)
    (hval : validate c = none)
    (hk : contentsAddedSize c = k)
    (hsub : ∀ kv ∈ c, kv.1 ∈ keysOf s.data)
    (hcols : ∀ kv ∈ s.data, kv.2.length = L)
    (hrange : ∀ i ∈ idxs.take (min idxs.length k), pyIdxOK i L) :
    s.update idxs c
      = s.update (idxs.take (min idxs.length k))
          (mapVals (List.take (min idxs.length k)) c) ∧
    (s.update idxs c).2 = none := by
  have htake : idxs.take (min idxs.length k) = idxs.take k := by
    rcases Nat.le_total idxs.length k with h | h
    · rw [min_eq_left h, List.take_length, List.take_of_length_le h]
    · rw [min_eq_right h]
  have hminxs : ∀ kv ∈ c, ∀ xs : List Cell, kv.2 = CVal.vlist xs →
      min idxs.length xs.length = min idxs.length k := by
    intro kv hkv xs hx
    obtain ⟨ys, hy, hl⟩ := (validate_none_facts c hval).2 kv hkv
    rw [hx] at hy
    injection hy with hy
    rw [← hy] at hl
    rw [hl, hk]
  constructor
  · unfold SimpleStore.update
    rw [hval, validate_mapVals_take c _ hval]
    simp only []
    rw [updateData_truncate idxs (min idxs.length k) c s.data hminxs]
  · unfold SimpleStore.update
    rw [hval]
    simp only []
    apply updateData_ok L idxs c s.data hcols hsub
    intro kv hkv
    obtain ⟨xs, hx, hl⟩ := (validate_none_facts c hval).2 kv hkv
    refine ⟨xs, hx, ?_⟩
    intro i hi
    apply hrange
    rw [htake]
    rw [hl, hk] at hi
    exact hi

/-- Witness for C10: two indexes, one value — the surplus index 99 is out
of range yet silently ignored; only position 0 is written, no error. -/
theorem update_surplus_ignored_witness :
    SimpleStore.update ⟨["a"], -1, "rolling", [("a", [some 1, some 2])], 2⟩
        [0, 99] [("a", CVal.vlist [some 7])]
      = SimpleStore.update ⟨["a"], -1, "rolling", [("a", [some 1, some 2])], 2⟩
        [0] [("a", CVal.vlist [some 7])] ∧
    (SimpleStore.update ⟨["a"], -1, "rolling", [("a", [some 1, some 2])], 2⟩
        [0, 99] [("a", CVal.vlist [some 7])]).2 = none ∧
    lookupCol (SimpleStore.update
        ⟨["a"], -1, "rolling", [("a", [some 1, some 2])], 2⟩
        [0, 99] [("a", CVal.vlist [some 7])]).1.data "a"
      = some [some 7, some 2] := by
  have h := update_surplus_ignored
    ⟨["a"], -1, "rolling", [("a", [some 1, some 2])], 2⟩ [0, 99]
    [("a", CVal.vlist [some 7])] 2 1
    (by decide) rfl (by decide) (by decide) (by decide)
  exact ⟨h.1.trans (by decide), h.2, by decide⟩

end Maro